import Mathlib

/-!
Verification of auto-email: routing, naming and extraction.

A shallow embedding of `auto-email/main.go`.  The program polls a mailbox, keeps the
unread messages whose subject starts with a configured key, stores the attachments of
each such message below `DataDirectory/<key>` and answers the sender with a receipt.

Conventions of the embedding.

* A Go `string` is a finite sequence of bytes; it is represented by `GoString`, a list
  of characters, and every string operation of the program (`strings.HasPrefix`,
  `path.Join`, `fmt.Sprintf`) is rendered element by element on that list.
* The answers of the mail libraries (header parsing, the part stream) and of the
  operating system (`os.Stat`, `os.Create`) are inputs of the model.
* `panic`/`recover` is modelled by an explicit outcome; effects performed before a
  panic stay in the state.
* The probing loop of `saveFile` has no bound in the program.  Every function that may
  run it takes `fuel`, the number of iterations granted to each run of the loop, and
  answers `none` when a loop is still running after them.  A result `some` does not
  depend on the fuel (`probeLoop_mono`); the program returns exactly when some fuel gives
  `some`, and runs forever exactly when every fuel gives `none`.
-/

namespace AutoEmail

/-- A Go string: a finite sequence of bytes. -/
abbrev GoString := List Char

/-! ## Library functions used by the program -/

/-- Go `strings.HasPrefix(s, prefix)`:
`len(s) >= len(prefix) && s[:len(prefix)] == prefix`. -/
def hasPrefix (s pre : GoString) : Bool :=
  decide (pre.length ≤ s.length) && decide (s.take pre.length = pre)

/-- Go `path.Clean`, the `..` case: `out.w--` followed by
`for out.w > dotdot && out.index(out.w) != '/' { out.w-- }`; the argument is the value of
`out.w` after the first decrement and the result is the final `out.w`. -/
def backtrackLoop (buf : GoString) (dotdot : Nat) : Nat → Nat
  | 0 => 0
  | w + 1 =>
    if dotdot < w + 1 ∧ buf.getD (w + 1) '/' ≠ '/' then backtrackLoop buf dotdot w
    else w + 1

/-- Go `path.Clean`: whether a separator is written before a real path element,
`rooted && out.w != 1 || !rooted && out.w != 0`. -/
def needSlash (rooted : Bool) (out : GoString) : Bool :=
  (rooted && out.length != 1) || (!rooted && out.length != 0)

/-- Go `path.Clean`, the main loop `for r < n { switch ... }`.  `rest` is `path[r:]`,
`out` the bytes written so far (`out.w` is its length) and `dotdot` the index where
backtracking must stop.  Every iteration consumes at least one byte, so a fuel of
`len(path)` is never exhausted (`cleanLoop_fuel`).  The result is the final buffer
together with the final `dotdot`. -/
def cleanLoop (rooted : Bool) : Nat → GoString → GoString → Nat → GoString × Nat
  | 0, _, out, dotdot => (out, dotdot)
  | _ + 1, [], out, dotdot => (out, dotdot)
  | fuel + 1, c :: cs, out, dotdot =>
    if c = '/' then
      -- empty path element
      cleanLoop rooted fuel cs out dotdot
    else if c = '.' ∧ (cs = [] ∨ cs.head? = some '/') then
      -- . element
      cleanLoop rooted fuel cs out dotdot
    else if c = '.' ∧ cs.head? = some '.' ∧ (cs.tail = [] ∨ cs.tail.head? = some '/') then
      -- .. element: remove to last /
      if dotdot < out.length then
        cleanLoop rooted fuel cs.tail
          (out.take (backtrackLoop out dotdot (out.length - 1))) dotdot
      else if !rooted then
        let out1 := (if 0 < out.length then out ++ ['/'] else out) ++ ['.', '.']
        cleanLoop rooted fuel cs.tail out1 out1.length
      else
        cleanLoop rooted fuel cs.tail out dotdot
    else
      -- real path element: add slash if needed, copy element
      let out1 := if needSlash rooted out then out ++ ['/'] else out
      cleanLoop rooted fuel ((c :: cs).dropWhile (fun b => b != '/'))
        (out1 ++ (c :: cs).takeWhile (fun b => b != '/')) dotdot

/-- Go `path.Clean`. -/
def pathClean (path : GoString) : GoString :=
  match path with
  | [] => ['.']
  | c :: cs =>
    let rooted : Bool := c = '/'
    let out :=
      if rooted then (cleanLoop true (c :: cs).length cs ['/'] 1).1
      else (cleanLoop false (c :: cs).length (c :: cs) [] 0).1
    if out.length = 0 then ['.'] else out

/-- The main loop of `path.Clean` run on `rest` from the state `st = (out, dotdot)` with
the fuel `len(rest)`. -/
def cleanRun (rooted : Bool) (rest : GoString) (st : GoString × Nat) : GoString × Nat :=
  cleanLoop rooted rest.length rest st.1 st.2

/-- A single path element that `path.Clean` copies unchanged: not empty, without `/`,
and neither `.` nor `..`. -/
def isPathElement (f : GoString) : Prop :=
  f ≠ [] ∧ '/' ∉ f ∧ f ≠ ['.'] ∧ f ≠ ['.', '.']

instance (f : GoString) : Decidable (isPathElement f) := by
  unfold isPathElement; infer_instance

/-- Value of a decimal digit string, most significant digit first. -/
def decodeDec (cs : GoString) : Nat := cs.foldl (fun a c => 10 * a + (c.toNat - 48)) 0

/-- Go `path.Join(elem...)`: the non-empty elements (and every element after the first
one written) are joined with `/` and the result is cleaned; all elements empty gives the
empty string. -/
def pathJoin (elem : List GoString) : GoString :=
  if (elem.map List.length).sum = 0 then []
  else
    pathClean (elem.foldl
      (fun buf e =>
        if 0 < buf.length ∨ e ≠ [] then (if 0 < buf.length then buf ++ ['/'] else buf) ++ e
        else buf) [])

/-- Go `fmt.Sprintf("%s-%d", filename, i)` for `i ≥ 0`: the name, a dash and `i` in
decimal. -/
def sprintfSD (filename : GoString) (i : Nat) : GoString :=
  filename ++ '-' :: Nat.toDigits 10 i

/-! ## Configuration -/

/-- The fields of `Config` read by the modelled functions. -/
structure Config where
  /-- Field `DataDirectory`, the storage root. -/
  DataDirectory : GoString
  /-- Field `Keys`, the ordered routing keys. -/
  Keys : List GoString

/-! ## Router -/

/-- The routing loop of `processMail`:
`for _, key := range config.Keys { if strings.HasPrefix(subject, key) { dirname = key; break } }`
started with `dirname` at its zero value `""`. -/
def routeLoop (subject : GoString) : List GoString → GoString
  | [] => []
  | key :: rest => if hasPrefix subject key then key else routeLoop subject rest

/-! ## File system and naming -/

/-- The operating system as the program sees it. -/
structure Env where
  /-- Whether `os.Stat(p)` fails with an error other than "does not exist": a name that
  is too long, a component that is not a directory, a directory that may not be
  searched. -/
  statError : GoString → Bool
  /-- Outcome of `os.Create` at a path. -/
  canCreate : GoString → Bool

/-- One line written through the `log` package, by call site. -/
inductive LogEvent
  /-- `log.Println(err)` in the deferred `recover` of `processMail`. -/
  | recovered
  /-- `log.Printf("err when create file ...")` in `saveFile`. -/
  | createError (path : GoString)
  /-- `log.Println(err)` after `header.Date()`. -/
  | dateError
  /-- `log.Printf("get message from ...")`. -/
  | gotMessage (subject : GoString)
  /-- `log.Printf("msg %v end", subject)`. -/
  | msgEnd (subject : GoString)
  /-- `log.Panic(err)` after `bodyReader.NextPart()`. -/
  | partError
  /-- `log.Printf("get text %v", ...)`. -/
  | gotText (text : GoString)
  /-- `log.Printf("fail to get attachment name ...")`. -/
  | attachmentNameError
  /-- `log.Printf("get attachment %v\n", filename)`. -/
  | gotAttachment (filename : GoString)
  /-- `log.Printf("save to file %v", filename)`. -/
  | savedTo (path : GoString)
  deriving DecidableEq, Repr

/-- One call of `sendReply(to, subject, attachmentNames, date)`. -/
structure Reply where
  /-- Parameter `to`. -/
  toAddr : GoString
  /-- Parameter `subject`. -/
  subject : GoString
  /-- Parameter `attachmentNames`. -/
  attachmentNames : List GoString
  /-- Parameter `date`; the zero time is `0`. -/
  date : Nat
  deriving DecidableEq, Repr

/-- The observable state: the paths that exist, the files created by `saveFile` (path
and bytes copied, oldest first), the log and the replies handed to `sendReply` (oldest
first). -/
structure State where
  /-- Paths that exist: `os.Stat` finds them unless it fails with another error. -/
  files : List GoString
  /-- Files created and filled by `saveFile`. -/
  written : List (GoString × GoString)
  /-- Lines logged. -/
  log : List LogEvent
  /-- Calls of `sendReply`. -/
  replies : List Reply
  deriving DecidableEq, Repr

/-- Append a line to the log. -/
def State.logged (st : State) (e : LogEvent) : State :=
  { st with log := st.log ++ [e] }

/-- The answers of `os.Stat` that `fileExist` tells apart. -/
inductive StatResult
  /-- No error: the path exists. -/
  | found
  /-- An error for which `os.IsNotExist` holds. -/
  | notExist
  /-- Any other error. -/
  | otherError
  deriving DecidableEq, Repr

/-- Go `os.Stat(filename)`, as far as `fileExist` reads it. -/
def osStat (env : Env) (files : List GoString) (filename : GoString) : StatResult :=
  if env.statError filename then .otherError
  else if filename ∈ files then .found
  else .notExist

/-- Go `fileExist(filename)`: `_, err := os.Stat(filename); return !os.IsNotExist(err)`.
It answers true for a path that exists and also for a path whose `os.Stat` fails with an
error other than "does not exist". -/
def fileExist (env : Env) (files : List GoString) (filename : GoString) : Bool :=
  match osStat env files filename with
  | .notExist => false
  | _ => true

/-- The probing loop of `saveFile`,
`for i := 0; ; i++ { if !fileExist(fmt.Sprintf("%s-%d", filename, i)) { ...; break } }`,
run for at most `fuel` iterations from the counter value given.  The result is the value
of `i` at the `break`, and `none` when the loop is still running after `fuel`
iterations.  The counter is a Go `int`; the loop leaves with `i` at most the number of
paths for which `fileExist` holds when these are finitely many, so it does not wrap
then. -/
def probeLoop (env : Env) (files : List GoString) (filename : GoString) :
    Nat → Nat → Option Nat
  | 0, _ => none
  | fuel + 1, i =>
    if !fileExist env files (sprintfSD filename i) then some i
    else probeLoop env files filename fuel (i + 1)

/-- The first ten lines of `saveFile`: join with `config.DataDirectory`, then probe when
`fileExist` holds for the joined path. -/
def resolveName (cfg : Config) (env : Env) (fuel : Nat) (files : List GoString)
    (filename : GoString) : Option GoString :=
  let filename := pathJoin [cfg.DataDirectory, filename]
  if fileExist env files filename then
    (probeLoop env files filename fuel 0).map (sprintfSD filename)
  else some filename

/-- Go `saveFile(reader, filename)`: resolve the name, `os.Create` it, copy the bytes,
return the resolved name.  A failure of `os.Create` is only logged: `f` is then nil, and
`f.Close()` and `io.Copy(f, reader)` on a nil file return an error that is dropped, so
nothing is written and the resolved name is still returned. -/
def saveFile (cfg : Config) (env : Env) (fuel : Nat) (st : State)
    (reader filename : GoString) : Option (GoString × State) :=
  match resolveName cfg env fuel st.files filename with
  | none => none
  | some p =>
    if env.canCreate p then
      some (p, { st with files := p :: st.files, written := st.written ++ [(p, reader)] })
    else
      some (p, st.logged (.createError p))

/-- A run of sequential `saveFile` calls, one per `(filename, bytes)`; each entry of the
result records the paths existing before the call and the path the call returned. -/
def saveFiles (cfg : Config) (env : Env) (fuel : Nat) :
    List (GoString × GoString) → State → Option (List (List GoString × GoString) × State)
  | [], st => some ([], st)
  | (filename, reader) :: rest, st =>
    match saveFile cfg env fuel st reader filename with
    | none => none
    | some (p, st1) =>
      match saveFiles cfg env fuel rest st1 with
      | none => none
      | some (tr, st2) => some ((st.files, p) :: tr, st2)

/-! ## Messages -/

/-- A body part as the `switch` of `processMail` sees it. -/
inductive Part
  /-- `*mail.InlineHeader` with the text read from the body. -/
  | inline (text : GoString)
  /-- `*mail.AttachmentHeader`; `filename` is the answer of `data.Filename()`: `none`
  when it returns an error, the name otherwise.  For a header that carries no filename
  the library returns the empty name and no error, that is `some []`. -/
  | attachment (filename : Option GoString) (body : GoString)
  /-- A header of any other type: no case of the `switch` applies. -/
  | other
  deriving DecidableEq, Repr

/-- One answer of `bodyReader.NextPart()` before `io.EOF`; the end of the list of
answers is `io.EOF`. -/
inductive NextPart
  /-- A part was read. -/
  | part (p : Part)
  /-- An error other than `io.EOF`. -/
  | error
  deriving DecidableEq, Repr

/-- What `mail.CreateReader` and the header accessors return for a body. -/
structure Mail where
  /-- `header.Subject()`, `none` on error. -/
  subject : Option GoString
  /-- `header.Date()`, `none` on error. -/
  date : Option Nat
  /-- `header.AddressList("From")`, `none` on error; the addresses otherwise. -/
  fromList : Option (List GoString)
  /-- The answers of `NextPart()` up to `io.EOF`. -/
  parts : List NextPart
  deriving DecidableEq, Repr

/-- `msg.GetBody(section)` followed by `mail.CreateReader`. -/
inductive Body
  /-- `GetBody` returned nil. -/
  | missing
  /-- `CreateReader` returned an error. -/
  | unreadable
  /-- A reader was created. -/
  | reader (m : Mail)
  deriving DecidableEq, Repr

/-- The envelope fields read by the program. -/
structure Envelope where
  /-- Field `Subject`. -/
  Subject : GoString
  deriving DecidableEq, Repr

/-- The fields of `imap.Message` read by the program. -/
structure Message where
  /-- Field `SeqNum` (a `uint32`). -/
  SeqNum : Nat
  /-- Field `Envelope`, `none` when nil. -/
  Envelope : Option Envelope
  /-- The body section. -/
  body : Body
  deriving DecidableEq, Repr

/-! ## Extraction pipeline -/

/-- How the part loop of `processMail` ends. -/
inductive LoopResult
  /-- `io.EOF` was reached; `attachmentNames` and the state. -/
  | finished (attachmentNames : List GoString) (st : State)
  /-- `log.Panic(err)`. -/
  | panicked (st : State)
  deriving DecidableEq, Repr

/-- The state a part loop ended in. -/
def LoopResult.state : LoopResult → State
  | .finished _ st => st
  | .panicked st => st

/-- The body of the part loop of `processMail` once `NextPart()` gave a part: the
`switch data := p.Header.(type)`.  The result is the new `attachmentNames` and state. -/
def handlePart (cfg : Config) (env : Env) (fuel : Nat) (dirname : GoString) (p : Part)
    (names : List GoString) (st : State) : Option (List GoString × State) :=
  match p with
  | .inline b => some (names, st.logged (.gotText b))
  | .attachment none _ => some (names, st.logged .attachmentNameError)
  | .attachment (some filename) body =>
    match saveFile cfg env fuel (st.logged (.gotAttachment filename)) body
        (pathJoin [dirname, filename]) with
    | none => none
    | some (path, st1) => some (names ++ [filename], st1.logged (.savedTo path))
  | .other => some (names, st)

/-- The part loop of `processMail`, `for { p, err := bodyReader.NextPart() ... }`. -/
def partsLoop (cfg : Config) (env : Env) (fuel : Nat) (dirname subject : GoString) :
    List NextPart → List GoString → State → Option LoopResult
  | [], names, st => some (.finished names (st.logged (.msgEnd subject)))
  | .error :: _, _, st => some (.panicked (st.logged .partError))
  | .part p :: rest, names, st =>
    match handlePart cfg env fuel dirname p names st with
    | none => none
    | some (names1, st1) => partsLoop cfg env fuel dirname subject rest names1 st1

/-- Go `sendReply`: the composed receipt is handed to the outbound transport. -/
def sendReply (st : State) (toAddr subject : GoString) (attachmentNames : List GoString)
    (date : Nat) : State :=
  { st with replies := st.replies ++ [⟨toAddr, subject, attachmentNames, date⟩] }

/-- The deferred function of `processMail`: a panic is logged and swallowed. -/
def recovered (st : State) : State := st.logged .recovered

/-- The end of `processMail` once the part loop is left: a panic of the loop is
recovered; otherwise `if reply { sendReply(from[0].Address, ...) }`, where `from[0]`
panics on an empty list. -/
def afterLoop (m : Mail) (subject : GoString) : LoopResult → State
  | .panicked st3 => recovered st3
  | .finished attachmentNames st3 =>
    if m.fromList.isSome then
      match m.fromList.getD [] with
      | [] => recovered st3
      | a :: _ => sendReply st3 a subject attachmentNames (m.date.getD 0)
    else st3

/-- The state in which `processMail` enters its part loop: the date error, if any, and
the message line are logged. -/
def beforeLoop (m : Mail) (subject : GoString) (st : State) : State :=
  (match m.date with
    | none => st.logged .dateError
    | some _ => st).logged (.gotMessage subject)

/-- Go `processMail(msg, section)`. -/
def processMail (cfg : Config) (env : Env) (fuel : Nat) (msg : Message) (st : State) :
    Option State :=
  match msg.body with
  | .missing => some (recovered st)
  | .unreadable => some (recovered st)
  | .reader m =>
    match m.subject with
    | none => some (recovered st)
    | some subject =>
      (partsLoop cfg env fuel (routeLoop subject cfg.Keys) subject m.parts []
        (beforeLoop m subject st)).map (afterLoop m subject)

/-! ## Batch selector -/

/-- The inner loop of `getValidSeqNumber`:
`valid := false; for _, key := range config.Keys { if strings.HasPrefix(...) { valid = true; break } }`. -/
def validLoop (subject : GoString) : List GoString → Bool
  | [] => false
  | key :: rest => if hasPrefix subject key then true else validLoop subject rest

/-- The loop `for msg := range messages` of `getValidSeqNumber`; `ret` accumulates. -/
def selectLoop (cfg : Config) : List (Option Message) → List Nat → List Nat
  | [], ret => ret
  | none :: rest, ret => selectLoop cfg rest ret
  | some msg :: rest, ret =>
    match msg.Envelope with
    | none => selectLoop cfg rest ret
    | some e =>
      if validLoop e.Subject cfg.Keys then selectLoop cfg rest (ret ++ [msg.SeqNum])
      else selectLoop cfg rest ret

/-- Go `getValidSeqNumber(cli)`: `search` is the answer of `cli.Search` (`none` on
error, which returns nil) and `messages` what the fetch channel yields. -/
def getValidSeqNumber (cfg : Config) (search : Option (List Nat))
    (messages : List (Option Message)) : List Nat :=
  match search with
  | none => []
  | some _ => selectLoop cfg messages []

/-! ## Vocabulary of the statements -/

/-- The attachment parts for which `data.Filename()` gave a name, as pairs of the claimed
filename and the bytes, in document order. -/
def namedAttachments : List Part → List (GoString × GoString)
  | [] => []
  | .attachment (some filename) body :: rest => (filename, body) :: namedAttachments rest
  | _ :: rest => namedAttachments rest

/-- The `saveFile` calls `processMail` makes for the named attachments of a part list:
the argument `path.Join(dirname, filename)` and the bytes. -/
def attachmentCalls (dirname : GoString) (ps : List Part) : List (GoString × GoString) :=
  (namedAttachments ps).map (fun nb => (pathJoin [dirname, nb.1], nb.2))

/-- Two states with the same files, the same created files and the same replies; only
the logs may differ. -/
def State.sameEffects (a b : State) : Prop :=
  a.files = b.files ∧ a.written = b.written ∧ a.replies = b.replies

/-- Two ends of the part loop of the same kind, with the same names and states of the
same effects. -/
def LoopResult.sameEffects : LoopResult → LoopResult → Prop
  | .finished n a, .finished n' b => n = n' ∧ a.sameEffects b
  | .panicked a, .panicked b => a.sameEffects b
  | _, _ => False

/-- The number of answers of `NextPart()` before `io.EOF` in a message. -/
def partCount (msg : Message) : Nat :=
  match msg.body with
  | .reader m => m.parts.length
  | _ => 0

/-- The paths `saveFile` may choose for the argument `filename`: the joined path or one
of its numbered variants. -/
def isCandidate (cfg : Config) (filename p : GoString) : Prop :=
  p = pathJoin [cfg.DataDirectory, filename] ∨
    ∃ i, p = sprintfSD (pathJoin [cfg.DataDirectory, filename]) i

/-- The parts `ps` handled one after the other by the body of the part loop, from
`(names, st)`; `none` when a probing loop is still running after `fuel` iterations. -/
def partsRun (cfg : Config) (env : Env) (fuel : Nat) (dirname : GoString) :
    List Part → List GoString → State → Option (List GoString × State)
  | [], names, st => some (names, st)
  | p :: rest, names, st =>
    match handlePart cfg env fuel dirname p names st with
    | none => none
    | some (names1, st1) => partsRun cfg env fuel dirname rest names1 st1

/-- The effects of handling the parts `ps` from `(names, st)` to `(names1, st1)`: the
names of the named attachments are appended in order; no reply is sent; log and created
files only grow; files are created only where `os.Create` succeeds; the effects on files
are those of the sequential `saveFile` calls for the named attachments; each named
attachment has its file created at a candidate path or a creation error logged for one;
a part without a name is logged; and every file created is at a candidate path of a
named attachment, with its bytes. -/
def partsEffect (cfg : Config) (env : Env) (fuel : Nat) (dirname : GoString)
    (ps : List Part) (names : List GoString) (st : State) (names1 : List GoString)
    (st1 : State) : Prop :=
  names1 = names ++ (namedAttachments ps).map Prod.fst ∧
  st1.replies = st.replies ∧
  (∀ e ∈ st.log, e ∈ st1.log) ∧
  (∀ w ∈ st.written, w ∈ st1.written) ∧
  (∀ w ∈ st1.written, w ∈ st.written ∨ env.canCreate w.1 = true) ∧
  (∀ st0, st.sameEffects st0 →
    ∃ tr stS, saveFiles cfg env fuel (attachmentCalls dirname ps) st0 = some (tr, stS) ∧
      st1.sameEffects stS) ∧
  (∀ nb ∈ namedAttachments ps, ∃ q, isCandidate cfg (pathJoin [dirname, nb.1]) q ∧
    ((env.canCreate q = true ∧ (q, nb.2) ∈ st1.written) ∨
      (env.canCreate q = false ∧ LogEvent.createError q ∈ st1.log))) ∧
  ((∃ b, Part.attachment none b ∈ ps) → LogEvent.attachmentNameError ∈ st1.log) ∧
  (∀ w ∈ st1.written, w ∈ st.written ∨
    ∃ nb ∈ namedAttachments ps, isCandidate cfg (pathJoin [dirname, nb.1]) w.1 ∧ w.2 = nb.2)

/-- Segments joined by `/`. -/
def joinSegs : List GoString → GoString
  | [] => []
  | [s] => s
  | s :: t => s ++ '/' :: joinSegs t

/-- A path without `..` segment that names something: every segment between its `/` is
a simple element, empty or `.`, and at least one is a simple element. -/
def isContained (f : GoString) : Prop :=
  ∃ segs : List GoString, f = joinSegs segs ∧
    (∀ s ∈ segs, isPathElement s ∨ s = [] ∨ s = ['.']) ∧ ∃ s ∈ segs, isPathElement s

/-- The simple elements of a list of segments: what `path.Clean` keeps of them. -/
def realSegs (segs : List GoString) : List GoString :=
  segs.filter (fun s => decide (isPathElement s))

/-- What the main loop of `path.Clean` has written after the segments `segs`, started
from the state `st`: the simple elements among them, each after a separator when one is
due. -/
def segsOut (rooted : Bool) (segs : List GoString) (st : GoString × Nat) : GoString × Nat :=
  if realSegs segs = [] then st
  else ((if needSlash rooted st.1 then st.1 ++ ['/'] else st.1) ++ joinSegs (realSegs segs),
    st.2)

/-- An operating system without `os.Stat` errors other than "does not exist" and where
every `os.Create` succeeds. -/
def exampleEnv : Env := ⟨fun _ => false, fun _ => true⟩

/-- The configuration of the examples: storage root `data`, keys `INVOICE` and
`RECEIPT`. -/
def exampleConfig : Config := ⟨"data".toList, ["INVOICE".toList, "RECEIPT".toList]⟩

/-- The state of the examples: the directories made by `readConfig` exist, nothing has
been created, logged or sent. -/
def exampleState : State :=
  ⟨["data".toList, "data/INVOICE".toList, "data/RECEIPT".toList], [], [], []⟩

/-- A message of the examples: subject, date `1`, sender list and parts as given. -/
def exampleMessage (subject : Option GoString) (fromList : Option (List GoString))
    (parts : List NextPart) : Message :=
  ⟨1, none, .reader ⟨subject, some 1, fromList, parts⟩⟩

/-- An operating system where `os.Create` fails at `data/INVOICE/a.txt` and nowhere
else, without `os.Stat` errors other than "does not exist". -/
def failingEnv : Env := ⟨fun _ => false, fun p => decide (p ≠ "data/INVOICE/a.txt".toList)⟩

/-- A name of 300 bytes, longer than a file name may be. -/
def longName : GoString := List.replicate 300 'a'

/-- An operating system where `os.Stat` fails with "name too long" on every path of more
than 255 bytes, and where `os.Create` succeeds on the other paths. -/
def nameMaxEnv : Env := ⟨fun p => decide (255 < p.length), fun p => decide (p.length ≤ 255)⟩

/-! ## The contracts as the specification words them -/

/-- The Router contract of the specification: the first key that is a prefix of the
subject, and no match when none qualifies or when the subject is empty. -/
def classifySpec (subject : GoString) (keys : List GoString) : Option GoString :=
  if subject = [] then none else keys.find? (fun k => k.isPrefixOf subject)

/-- The Batch Selector contract of the specification: the sequence numbers, in the order
yielded, of the messages that are present, have an envelope and whose subject the
Router contract matches. -/
def selectSpec (keys : List GoString) (messages : List (Option Message)) : List Nat :=
  messages.filterMap (fun m =>
    match m with
    | none => none
    | some msg =>
      match msg.Envelope with
      | none => none
      | some e => if (classifySpec e.Subject keys).isSome then some msg.SeqNum else none)

/-! ## Decimal rendering -/

theorem digitChar_val (d : Nat) (h : d < 10) : (Nat.digitChar d).toNat - 48 = d := by
  interval_cases d <;> rfl

theorem decodeDec_snoc (xs : GoString) (c : Char) :
    decodeDec (xs ++ [c]) = 10 * decodeDec xs + (c.toNat - 48) := by
  simp [decodeDec, List.foldl_append]

theorem toDigitsCore_spec (fuel : Nat) : ∀ n ds, n < fuel →
    Nat.toDigitsCore 10 fuel n ds = Nat.toDigitsCore 10 fuel n [] ++ ds ∧
    decodeDec (Nat.toDigitsCore 10 fuel n []) = n := by
  induction fuel with
  | zero => intro n ds h; omega
  | succ fuel ih =>
    intro n ds h
    simp only [Nat.toDigitsCore]
    by_cases h0 : n / 10 = 0
    · simp only [h0, if_true]
      refine ⟨by simp, ?_⟩
      have hn : n % 10 = n := by omega
      have hd := digitChar_val (n % 10) (by omega)
      rw [hn] at hd
      simp [decodeDec, hn, hd]
    · simp only [h0, if_false]
      have hlt : n / 10 < fuel := by omega
      have h1 := (ih (n / 10) (Nat.digitChar (n % 10) :: ds) hlt).1
      have h2 := (ih (n / 10) [Nat.digitChar (n % 10)] hlt).1
      have h3 := (ih (n / 10) [] hlt).2
      refine ⟨by rw [h1, h2]; simp, ?_⟩
      rw [h2, decodeDec_snoc, h3, digitChar_val _ (by omega)]
      omega

theorem toDigits_injective : Function.Injective (Nat.toDigits 10) := by
  intro a b h
  have ha := (toDigitsCore_spec (a + 1) a [] (by omega)).2
  have hb := (toDigitsCore_spec (b + 1) b [] (by omega)).2
  simp only [Nat.toDigits] at h
  rw [← ha, ← hb, h]

theorem sprintfSD_injective (filename : GoString) :
    Function.Injective (sprintfSD filename) := by
  intro a b h
  simp only [sprintfSD, List.append_cancel_left_eq, List.cons.injEq, true_and] at h
  exact toDigits_injective h

/-! ## Prefix test and router -/

theorem hasPrefix_iff (s pre : GoString) : hasPrefix s pre = true ↔ pre <+: s := by
  simp only [hasPrefix, Bool.and_eq_true, decide_eq_true_eq]
  constructor
  · rintro ⟨_, h⟩
    exact List.prefix_iff_eq_take.mpr h.symm
  · intro h
    exact ⟨h.length_le, (List.prefix_iff_eq_take.mp h).symm⟩

theorem routeLoop_none (s : GoString) (K : List GoString)
    (h : ∀ k ∈ K, ¬ k <+: s) : routeLoop s K = [] := by
  induction K with
  | nil => rfl
  | cons k K ih =>
    have hk : hasPrefix s k = false := by
      rw [Bool.eq_false_iff]
      intro hp
      exact h k (List.mem_cons_self _ _) ((hasPrefix_iff s k).mp hp)
    simp only [routeLoop, hk]
    exact ih (fun k' hk' => h k' (List.mem_cons_of_mem _ hk'))

theorem routeLoop_first (s : GoString) (K : List GoString) (i : Nat) (hi : i < K.length)
    (hp : K[i] <+: s) (hlow : ∀ j (hj : j < i), ¬ K[j] <+: s) : routeLoop s K = K[i] := by
  induction K generalizing i with
  | nil => simp at hi
  | cons k K ih =>
    cases i with
    | zero =>
      have hk : hasPrefix s k = true := (hasPrefix_iff s k).mpr (by simpa using hp)
      simp [routeLoop, hk]
    | succ i =>
      have hk : hasPrefix s k = false := by
        rw [Bool.eq_false_iff]
        intro hq
        exact hlow 0 (by omega) (by simpa using (hasPrefix_iff s k).mp hq)
      simp only [routeLoop, hk, List.getElem_cons_succ]
      refine ih i (by simpa using hi) (by simpa using hp) ?_
      intro j hj
      have := hlow (j + 1) (by omega)
      simpa using this

/-! ## `path.Clean` on simple elements -/

theorem dropWhile_length_le (p : Char → Bool) (l : GoString) :
    (l.dropWhile p).length ≤ l.length :=
  (List.dropWhile_suffix p).length_le

/-- The fuel of the main loop of `path.Clean` is never exhausted: any fuel of at least
`len(rest)` gives the same result. -/
theorem cleanLoop_fuel (rooted : Bool) : ∀ (f1 f2 : Nat) (rest out : GoString) (dd : Nat),
    rest.length ≤ f1 → rest.length ≤ f2 →
    cleanLoop rooted f1 rest out dd = cleanLoop rooted f2 rest out dd := by
  intro f1
  induction f1 with
  | zero =>
    intro f2 rest out dd h1 _
    have : rest = [] := List.length_eq_zero.mp (by omega)
    subst this
    cases f2 <;> simp [cleanLoop]
  | succ f1 ih =>
    intro f2 rest out dd h1 h2
    cases rest with
    | nil => cases f2 <;> simp [cleanLoop]
    | cons c cs =>
      cases f2 with
      | zero => simp at h2
      | succ f2 =>
        simp only [List.length_cons, Nat.add_le_add_iff_right] at h1 h2
        have htl : cs.tail.length ≤ cs.length := by simp
        have hdw : ((c :: cs).dropWhile (fun b => b != '/')).length ≤ cs.length ∨ c = '/' := by
          by_cases hc : c = '/'
          · exact Or.inr hc
          · left
            have : (c != '/') = true := by simpa using hc
            simp only [List.dropWhile_cons, this, if_true]
            exact dropWhile_length_le _ _
        simp only [cleanLoop]
        have hdw2 : c ≠ '/' →
            ((c :: cs).dropWhile (fun b => b != '/')).length ≤ cs.length := by
          intro hc
          rcases hdw with hdw | hdw
          · exact hdw
          · exact absurd hdw hc
        split_ifs with h_1
        all_goals first
          | exact ih _ _ _ _ (by omega) (by omega)
          | exact ih _ _ _ _ (by have := hdw2 h_1; omega) (by have := hdw2 h_1; omega)

theorem cleanRun_nil (rooted : Bool) (st : GoString × Nat) : cleanRun rooted [] st = st := by
  simp [cleanRun, cleanLoop]

/-- One iteration of the main loop of `path.Clean`, free of fuel. -/
theorem cleanRun_cons (rooted : Bool) (c : Char) (cs out : GoString) (dd : Nat) :
    cleanRun rooted (c :: cs) (out, dd) =
      if c = '/' then cleanRun rooted cs (out, dd)
      else if c = '.' ∧ (cs = [] ∨ cs.head? = some '/') then cleanRun rooted cs (out, dd)
      else if c = '.' ∧ cs.head? = some '.' ∧ (cs.tail = [] ∨ cs.tail.head? = some '/') then
        if dd < out.length then
          cleanRun rooted cs.tail (out.take (backtrackLoop out dd (out.length - 1)), dd)
        else if !rooted then
          cleanRun rooted cs.tail
            ((if 0 < out.length then out ++ ['/'] else out) ++ ['.', '.'],
             ((if 0 < out.length then out ++ ['/'] else out) ++ ['.', '.']).length)
        else cleanRun rooted cs.tail (out, dd)
      else
        cleanRun rooted ((c :: cs).dropWhile (fun b => b != '/'))
          ((if needSlash rooted out then out ++ ['/'] else out) ++
            (c :: cs).takeWhile (fun b => b != '/'), dd) := by
  have htl : cs.tail.length ≤ cs.length := by simp
  simp only [cleanRun, List.length_cons, cleanLoop]
  split_ifs with h_1
  all_goals first
    | rfl
    | exact cleanLoop_fuel rooted _ _ _ _ _ (by omega) (le_refl _)
    | (apply cleanLoop_fuel rooted _ _ _ _ _ _ (le_refl _)
       have hc : (c != '/') = true := by simpa using h_1
       simp only [List.dropWhile_cons, hc, if_true]
       exact dropWhile_length_le _ _)

theorem dropWhile_append_sep (x y : GoString) :
    (x ++ '/' :: y).dropWhile (fun b => b != '/') =
      x.dropWhile (fun b => b != '/') ++ '/' :: y := by
  induction x with
  | nil => simp [List.dropWhile_cons]
  | cons a t ih =>
    by_cases ha : a = '/'
    · subst ha; simp [List.dropWhile_cons]
    · have hc : (a != '/') = true := by simpa using ha
      simp only [List.cons_append, List.dropWhile_cons, hc, if_true, ih]

theorem takeWhile_append_sep (x y : GoString) :
    (x ++ '/' :: y).takeWhile (fun b => b != '/') = x.takeWhile (fun b => b != '/') := by
  induction x with
  | nil => simp [List.takeWhile_cons]
  | cons a t ih =>
    by_cases ha : a = '/'
    · subst ha; simp [List.takeWhile_cons]
    · have hc : (a != '/') = true := by simpa using ha
      simp only [List.cons_append, List.takeWhile_cons, hc, if_true, ih]

/-- Running the loop of `path.Clean` on `x/y` is running it on `x` and going on with `y`
from the state reached. -/
theorem cleanRun_append_sep (rooted : Bool) : ∀ (n : Nat) (x : GoString), x.length ≤ n →
    ∀ (y : GoString) (st : GoString × Nat),
      cleanRun rooted (x ++ '/' :: y) st = cleanRun rooted y (cleanRun rooted x st) := by
  intro n
  induction n with
  | zero =>
    intro x hx y st
    have : x = [] := List.length_eq_zero.mp (by omega)
    subst this
    obtain ⟨out, dd⟩ := st
    simp [cleanRun_nil, cleanRun_cons]
  | succ n ih =>
    intro x hx y st
    obtain ⟨out, dd⟩ := st
    cases x with
    | nil => simp [cleanRun_nil, cleanRun_cons]
    | cons c cs =>
      simp only [List.length_cons, Nat.add_le_add_iff_right] at hx
      have h2 : (cs ++ '/' :: y = [] ∨ (cs ++ '/' :: y).head? = some '/') ↔
          (cs = [] ∨ cs.head? = some '/') := by
        cases cs <;> simp
      have h3 : ((cs ++ '/' :: y).head? = some '.' ∧
            ((cs ++ '/' :: y).tail = [] ∨ (cs ++ '/' :: y).tail.head? = some '/')) ↔
          (cs.head? = some '.' ∧ (cs.tail = [] ∨ cs.tail.head? = some '/')) := by
        rcases cs with _ | ⟨a, _ | ⟨b, t⟩⟩ <;> simp
      have h4 : cs.head? = some '.' → (cs ++ '/' :: y).tail = cs.tail ++ '/' :: y := by
        cases cs <;> simp
      have htl : cs.tail.length ≤ n := by
        have : cs.tail.length ≤ cs.length := by simp
        omega
      rw [List.cons_append, cleanRun_cons, cleanRun_cons rooted c cs]
      simp only [h2, h3]
      by_cases h_1 : c = '/'
      · rw [if_pos h_1, if_pos h_1]
        exact ih cs hx y _
      · rw [if_neg h_1, if_neg h_1]
        by_cases h_2 : c = '.' ∧ (cs = [] ∨ cs.head? = some '/')
        · rw [if_pos h_2, if_pos h_2]
          exact ih cs hx y _
        · rw [if_neg h_2, if_neg h_2]
          by_cases h_3 : c = '.' ∧ cs.head? = some '.' ∧
              (cs.tail = [] ∨ cs.tail.head? = some '/')
          · rw [if_pos h_3, if_pos h_3, h4 h_3.2.1]
            split_ifs
            all_goals exact ih cs.tail htl y _
          · rw [if_neg h_3, if_neg h_3, ← List.cons_append, dropWhile_append_sep,
              takeWhile_append_sep]
            refine ih _ ?_ y _
            have hc : (c != '/') = true := by simpa using h_1
            simp only [List.dropWhile_cons, hc, if_true]
            exact le_trans (dropWhile_length_le _ _) hx

/-- The loop of `path.Clean` copies a simple element, after a separator when one is due. -/
theorem cleanRun_element (rooted : Bool) (f : GoString) (hf : isPathElement f)
    (out : GoString) (dd : Nat) :
    cleanRun rooted f (out, dd) =
      ((if needSlash rooted out then out ++ ['/'] else out) ++ f, dd) := by
  obtain ⟨hne, hsl, hdot, hdd⟩ := hf
  cases f with
  | nil => exact absurd rfl hne
  | cons c cs =>
    have hc : c ≠ '/' := fun h => hsl (by simp [h])
    have hcs : '/' ∉ cs := fun h => hsl (List.mem_cons_of_mem _ h)
    have h2 : ¬ (c = '.' ∧ (cs = [] ∨ cs.head? = some '/')) := by
      rintro ⟨h, h' | h'⟩
      · exact hdot (by rw [h, h'])
      · cases cs with
        | nil => simp at h'
        | cons a t =>
          simp only [List.head?_cons, Option.some.injEq] at h'
          exact hcs (by simp [h'])
    have h3 : ¬ (c = '.' ∧ cs.head? = some '.' ∧
        (cs.tail = [] ∨ cs.tail.head? = some '/')) := by
      rintro ⟨h, h', h''⟩
      cases cs with
      | nil => simp at h'
      | cons a t =>
        simp only [List.head?_cons, Option.some.injEq] at h'
        simp only [List.tail_cons] at h''
        rcases h'' with h'' | h''
        · exact hdd (by rw [h, h', h''])
        · cases t with
          | nil => simp at h''
          | cons b u =>
            simp only [List.head?_cons, Option.some.injEq] at h''
            exact hcs (by simp [h''])
    have hall : ∀ b ∈ c :: cs, (b != '/') = true := by
      intro b hb
      have : b ≠ '/' := fun h => hsl (h ▸ hb)
      simpa using this
    have htw : (c :: cs).takeWhile (fun b => b != '/') = c :: cs :=
      List.takeWhile_eq_self_iff.mpr hall
    have hdw : (c :: cs).dropWhile (fun b => b != '/') = [] :=
      List.dropWhile_eq_nil_iff.mpr hall
    rw [cleanRun_cons, if_neg hc, if_neg h2, if_neg h3, htw, hdw, cleanRun_nil]

/-- Go `path.Clean` in terms of the fuel-free loop. -/
theorem pathClean_cons (c : Char) (cs : GoString) :
    pathClean (c :: cs) =
      if c = '/' then
        (if (cleanRun true cs (['/'], 1)).1.length = 0 then ['.']
         else (cleanRun true cs (['/'], 1)).1)
      else
        (if (cleanRun false (c :: cs) ([], 0)).1.length = 0 then ['.']
         else (cleanRun false (c :: cs) ([], 0)).1) := by
  simp only [pathClean, cleanRun, List.length_cons]
  by_cases hc : c = '/'
  · simp only [hc, decide_True, if_true]
    rw [cleanLoop_fuel true (cs.length + 1) cs.length cs _ _ (by omega) (le_refl _)]
  · simp [hc]

/-- Cleaning `x/f` for a simple element `f` appends `f` to what cleaning `x` wrote. -/
theorem cleanRun_sep_element (rooted : Bool) (x f : GoString) (hf : isPathElement f)
    (st : GoString × Nat) :
    cleanRun rooted (x ++ '/' :: f) st =
      ((if needSlash rooted (cleanRun rooted x st).1 then (cleanRun rooted x st).1 ++ ['/']
        else (cleanRun rooted x st).1) ++ f, (cleanRun rooted x st).2) := by
  rw [cleanRun_append_sep rooted x.length x (le_refl _) f st]
  exact cleanRun_element rooted f hf _ _

theorem pathClean_element (k : GoString) (hk : isPathElement k) : pathClean k = k := by
  have hk' := hk
  obtain ⟨hne, hsl, -, -⟩ := hk
  cases k with
  | nil => exact absurd rfl hne
  | cons c cs =>
    have hc : c ≠ '/' := fun h => hsl (by simp [h])
    rw [pathClean_cons, if_neg hc, cleanRun_element false _ hk']
    simp [needSlash]

/-- Joining two simple elements gives `k/f`. -/
theorem pathJoin_elements (k f : GoString) (hk : isPathElement k) (hf : isPathElement f) :
    pathJoin [k, f] = k ++ '/' :: f := by
  have hk' := hk
  obtain ⟨hne, hsl, -, -⟩ := hk
  cases k with
  | nil => exact absurd rfl hne
  | cons c cs =>
    have hc : c ≠ '/' := fun h => hsl (by simp [h])
    have hbuf : pathJoin [c :: cs, f] = pathClean (c :: (cs ++ '/' :: f)) := by
      simp [pathJoin]
    rw [hbuf, pathClean_cons, if_neg hc, ← List.cons_append,
      cleanRun_sep_element false _ f hf, cleanRun_element false _ hk']
    simp [needSlash]

theorem needSlash_after_element (rooted : Bool) (S k : GoString) (hk : k ≠ []) :
    needSlash rooted ((if needSlash rooted S then S ++ ['/'] else S) ++ k) = true := by
  have hklen : 0 < k.length := List.length_pos.mpr hk
  cases rooted
  · simp [needSlash, hk]
  · by_cases hS : S.length = 1
    · simp only [needSlash, hS, bne_self_eq_false, Bool.true_and, Bool.not_true, Bool.false_and,
        Bool.or_false, Bool.false_eq_true, if_false, List.length_append, bne_iff_ne, ne_eq]
      omega
    · have : (S.length != 1) = true := by simpa using hS
      simp only [needSlash, this, Bool.true_and, Bool.not_true, Bool.false_and, Bool.or_false,
        if_true, List.length_append, List.length_singleton, bne_iff_ne, ne_eq]
      omega

theorem clean_result_under (rooted : Bool) (S k f : GoString) (hk : k ≠ []) :
    (if (((if needSlash rooted ((if needSlash rooted S then S ++ ['/'] else S) ++ k)
            then ((if needSlash rooted S then S ++ ['/'] else S) ++ k) ++ ['/']
            else (if needSlash rooted S then S ++ ['/'] else S) ++ k) ++ f, 0).1).length = 0
      then ['.']
      else (((if needSlash rooted ((if needSlash rooted S then S ++ ['/'] else S) ++ k)
            then ((if needSlash rooted S then S ++ ['/'] else S) ++ k) ++ ['/']
            else (if needSlash rooted S then S ++ ['/'] else S) ++ k) ++ f, 0).1)) =
    (if (((if needSlash rooted S then S ++ ['/'] else S) ++ k, 0).1).length = 0 then ['.']
      else (((if needSlash rooted S then S ++ ['/'] else S) ++ k, 0).1)) ++ '/' :: f := by
  rw [needSlash_after_element rooted S k hk]
  have hklen : 0 < k.length := List.length_pos.mpr hk
  have h1 : ¬ ((if needSlash rooted S then S ++ ['/'] else S) ++ k).length = 0 := by
    rw [List.length_append]; omega
  simp only [if_true, List.length_append] at h1 ⊢
  rw [if_neg (by omega), if_neg h1]
  simp

/-- Storage containment for simple names: joining the storage root with `k/f` gives the
directory `path.Join(root, k)` followed by `/f`, whatever the root is. -/
theorem pathJoin_under (d k f : GoString) (hk : isPathElement k) (hf : isPathElement f) :
    pathJoin [d, k ++ '/' :: f] = pathJoin [d, k] ++ '/' :: f := by
  have hkne : k ≠ [] := hk.1
  have hklen : 0 < k.length := List.length_pos.mpr hkne
  cases d with
  | nil =>
    have h1 : pathJoin [[], k ++ '/' :: f] = pathClean (k ++ '/' :: f) := by
      simp [pathJoin]
    have h2 : pathJoin [[], k] = pathClean k := by
      simp [pathJoin, hkne]
    have h3 := pathJoin_elements k f hk hf
    have h4 : pathJoin [k, f] = pathClean (k ++ '/' :: f) := by
      simp [pathJoin, hkne, hklen]
    rw [h1, h2, pathClean_element k hk, ← h4, h3]
  | cons c cs =>
    have h1 : pathJoin [c :: cs, k ++ '/' :: f] = pathClean (c :: (cs ++ '/' :: k ++ '/' :: f)) := by
      simp [pathJoin]
    have h2 : pathJoin [c :: cs, k] = pathClean (c :: (cs ++ '/' :: k)) := by
      simp [pathJoin]
    rw [h1, h2, pathClean_cons, pathClean_cons]
    by_cases hc : c = '/'
    · rw [if_pos hc, if_pos hc]
      have e1 : cs ++ '/' :: k ++ '/' :: f = (cs ++ '/' :: k) ++ '/' :: f := by simp
      rw [e1, cleanRun_sep_element true _ f hf, cleanRun_sep_element true cs k hk]
      exact clean_result_under true _ k f hkne
    · rw [if_neg hc, if_neg hc]
      have e1 : c :: (cs ++ '/' :: k ++ '/' :: f) = (c :: (cs ++ '/' :: k)) ++ '/' :: f := by
        simp
      have e2 : c :: (cs ++ '/' :: k) = (c :: cs) ++ '/' :: k := by simp
      rw [e1, cleanRun_sep_element false _ f hf, e2, cleanRun_sep_element false _ k hk]
      exact clean_result_under false _ k f hkne

/-! ## `path.Clean` on paths without `..` -/

theorem joinSegs_cons (s : GoString) (t : List GoString) (ht : t ≠ []) :
    joinSegs (s :: t) = s ++ '/' :: joinSegs t := by
  cases t with
  | nil => exact absurd rfl ht
  | cons a t => rfl

theorem joinSegs_append (a b : List GoString) (ha : a ≠ []) (hb : b ≠ []) :
    joinSegs (a ++ b) = joinSegs a ++ '/' :: joinSegs b := by
  induction a with
  | nil => exact absurd rfl ha
  | cons s t ih =>
    cases t with
    | nil => simp [joinSegs_cons s b hb, joinSegs]
    | cons u t =>
      have h1 : (u :: t) ++ b ≠ [] := by simp
      rw [List.cons_append, joinSegs_cons s _ h1, ih (by simp), joinSegs_cons s (u :: t) (by simp)]
      simp

theorem realSegs_append (a b : List GoString) : realSegs (a ++ b) = realSegs a ++ realSegs b := by
  simp [realSegs]

theorem mem_realSegs {segs : List GoString} {s : GoString} :
    s ∈ realSegs segs ↔ s ∈ segs ∧ isPathElement s := by
  simp [realSegs]

theorem realSegs_ne_nil {segs : List GoString} (h : ∃ s ∈ segs, isPathElement s) :
    realSegs segs ≠ [] := by
  obtain ⟨s, hs, hp⟩ := h
  exact List.ne_nil_of_mem (mem_realSegs.mpr ⟨hs, hp⟩)

theorem realSegs_realSegs (segs : List GoString) : realSegs (realSegs segs) = realSegs segs := by
  simp [realSegs]

theorem not_isPathElement_nil : ¬ isPathElement [] := fun h => h.1 rfl

theorem not_isPathElement_dot : ¬ isPathElement ['.'] := fun h => h.2.2.1 rfl

/-- The loop of `path.Clean` on one segment: a simple element is copied, an empty
segment or `.` leaves the state as it is. -/
theorem cleanRun_segment (rooted : Bool) (s : GoString)
    (hs : isPathElement s ∨ s = [] ∨ s = ['.']) (out : GoString) (dd : Nat) :
    cleanRun rooted s (out, dd) =
      if isPathElement s then ((if needSlash rooted out then out ++ ['/'] else out) ++ s, dd)
      else (out, dd) := by
  rcases hs with h | h | h
  · rw [if_pos h]; exact cleanRun_element rooted s h out dd
  · subst h; rw [if_neg not_isPathElement_nil]; exact cleanRun_nil rooted _
  · subst h
    rw [if_neg not_isPathElement_dot, cleanRun_cons, if_neg (by decide),
      if_pos ⟨rfl, Or.inl rfl⟩, cleanRun_nil]

theorem joinSegs_ne_nil {segs : List GoString} (h : ∃ s ∈ segs, isPathElement s) :
    joinSegs segs ≠ [] := by
  induction segs with
  | nil => obtain ⟨s, hs, -⟩ := h; simp at hs
  | cons a t ih =>
    cases t with
    | nil =>
      obtain ⟨s, hs, hp⟩ := h
      have : s = a := by simpa using hs
      subst this
      exact hp.1
    | cons u t => rw [joinSegs_cons a _ (by simp)]; simp

/-- The loop of `path.Clean` on segments that are simple, empty or `.`: it writes the
simple ones, joined by `/`. -/
theorem cleanRun_joinSegs (rooted : Bool) : ∀ (segs : List GoString),
    (∀ s ∈ segs, isPathElement s ∨ s = [] ∨ s = ['.']) → ∀ (out : GoString) (dd : Nat),
      cleanRun rooted (joinSegs segs) (out, dd) = segsOut rooted segs (out, dd) := by
  intro segs
  induction segs with
  | nil =>
    intro _ out dd
    simp [joinSegs, cleanRun_nil, segsOut, realSegs]
  | cons a t ih =>
    intro hok out dd
    have ha := hok a (List.mem_cons_self _ _)
    have ht : ∀ s ∈ t, isPathElement s ∨ s = [] ∨ s = ['.'] :=
      fun s hs => hok s (List.mem_cons_of_mem _ hs)
    by_cases htn : t = []
    · subst htn
      have hj : joinSegs [a] = a := rfl
      rw [hj, cleanRun_segment rooted a ha]
      by_cases hp : isPathElement a
      · simp [segsOut, realSegs, hp, joinSegs]
      · simp [segsOut, realSegs, hp]
    · rw [joinSegs_cons a t htn, cleanRun_append_sep rooted a.length a (le_refl _),
        cleanRun_segment rooted a ha]
      by_cases hp : isPathElement a
      · rw [if_pos hp, ih ht]
        have hr : realSegs (a :: t) = a :: realSegs t := by simp [realSegs, hp]
        simp only [segsOut, hr]
        by_cases hrt : realSegs t = []
        · simp [hrt, joinSegs]
        · have hns := needSlash_after_element rooted out a hp.1
          simp only [if_neg hrt, List.cons_ne_nil, if_false, hns, if_true,
            joinSegs_cons a _ hrt]
          simp
      · rw [if_neg hp, ih ht]
        have hr : realSegs (a :: t) = realSegs t := by simp [realSegs, hp]
        simp only [segsOut, hr]

/-- Cleaning `x/f` for `f` made of segments that are simple, empty or `.`. -/
theorem cleanRun_sep_joinSegs (rooted : Bool) (x : GoString) (segs : List GoString)
    (hok : ∀ s ∈ segs, isPathElement s ∨ s = [] ∨ s = ['.']) (st : GoString × Nat) :
    cleanRun rooted (x ++ '/' :: joinSegs segs) st = segsOut rooted segs (cleanRun rooted x st) := by
  rw [cleanRun_append_sep rooted x.length x (le_refl _)]
  exact cleanRun_joinSegs rooted segs hok _ _

theorem segsOut_fst (rooted : Bool) (segs : List GoString) (st : GoString × Nat)
    (hR : realSegs segs ≠ []) :
    (segsOut rooted segs st).1 =
      (if needSlash rooted st.1 then st.1 ++ ['/'] else st.1) ++ joinSegs (realSegs segs) := by
  simp [segsOut, hR]

theorem dot_if_ne (o : GoString) (h : o ≠ []) : (if o.length = 0 then ['.'] else o) = o := by
  rw [if_neg (fun hl => h (List.length_eq_zero.mp hl))]

theorem append_ne_nil_right (x y : GoString) (h : y ≠ []) : x ++ y ≠ [] := by
  intro hxy
  exact h (List.append_eq_nil.mp hxy).2

theorem segment_head_ne_slash (a : GoString) (c : Char) (rest : GoString)
    (ha : isPathElement a ∨ a = [] ∨ a = ['.']) (h : a = c :: rest) : c ≠ '/' := by
  rcases ha with hp | hn | hd
  · intro hc
    exact hp.2.1 (by rw [h, hc]; exact List.mem_cons_self _ _)
  · rw [hn] at h; exact absurd h (by simp)
  · rw [hd] at h
    simp only [List.cons.injEq] at h
    rw [← h.1]; decide

theorem joinSegs_head (a : GoString) (t : List GoString) :
    ∃ rest, joinSegs (a :: t) = a ++ rest := by
  cases t with
  | nil => exact ⟨[], by simp [joinSegs]⟩
  | cons u t => exact ⟨'/' :: joinSegs (u :: t), rfl⟩

theorem joinSegs_real_head (R : List GoString) (hR : R ≠ [])
    (hreal : ∀ s ∈ R, isPathElement s) : (joinSegs R).head? ≠ some '/' := by
  cases R with
  | nil => exact absurd rfl hR
  | cons a t =>
    obtain ⟨rest, hrest⟩ := joinSegs_head a t
    have ha := hreal a (List.mem_cons_self _ _)
    cases a with
    | nil => exact absurd rfl ha.1
    | cons c a' =>
      rw [hrest]
      simp only [List.cons_append, List.head?_cons, ne_eq, Option.some.injEq]
      exact segment_head_ne_slash (c :: a') c a' (Or.inl ha) rfl

/-- Go `path.Clean` on a path whose segments are simple, empty or `.`, one at least being
simple: the simple segments joined by `/`, after a `/` when the path is rooted. -/
theorem pathClean_joinSegs (segs : List GoString)
    (hok : ∀ s ∈ segs, isPathElement s ∨ s = [] ∨ s = ['.'])
    (hreal : ∃ s ∈ segs, isPathElement s) :
    pathClean (joinSegs segs) =
      (if (joinSegs segs).head? = some '/' then ['/'] else []) ++ joinSegs (realSegs segs) := by
  have hR := realSegs_ne_nil hreal
  have hRne : joinSegs (realSegs segs) ≠ [] :=
    joinSegs_ne_nil (by
      obtain ⟨s, hs⟩ := List.exists_mem_of_ne_nil _ hR
      exact ⟨s, hs, (mem_realSegs.mp hs).2⟩)
  have hRlen : 0 < (joinSegs (realSegs segs)).length := List.length_pos.mpr hRne
  cases segs with
  | nil => obtain ⟨s, hs, -⟩ := hreal; simp at hs
  | cons a t =>
    have ha := hok a (List.mem_cons_self _ _)
    have ht : ∀ s ∈ t, isPathElement s ∨ s = [] ∨ s = ['.'] :=
      fun s hs => hok s (List.mem_cons_of_mem _ hs)
    cases a with
    | nil =>
      have hrt : realSegs ([] :: t) = realSegs t := by
        simp [realSegs, not_isPathElement_nil]
      have htn : t ≠ [] := by
        intro h
        rw [h] at hR
        exact hR (by simp [realSegs, not_isPathElement_nil])
      rw [hrt] at hR hRlen hRne ⊢
      have hj : joinSegs ([] :: t) = '/' :: joinSegs t := by
        rw [joinSegs_cons [] t htn]; rfl
      have hns : needSlash true ['/'] = false := by decide
      rw [hj, pathClean_cons, if_pos rfl, cleanRun_joinSegs true t ht, segsOut_fst _ _ _ hR,
        dot_if_ne _ (append_ne_nil_right _ _ hRne)]
      simp only [hns, Bool.false_eq_true, if_false, List.head?_cons, if_true]
    | cons c a' =>
      have hc : c ≠ '/' := segment_head_ne_slash (c :: a') c a' ha rfl
      obtain ⟨rest, hrest⟩ := joinSegs_head (c :: a') t
      have hj : joinSegs ((c :: a') :: t) = c :: (a' ++ rest) := by rw [hrest]; rfl
      have hhead : (joinSegs ((c :: a') :: t)).head? ≠ some '/' := by
        rw [hj]; simpa using hc
      rw [if_neg hhead]
      conv_lhs => rw [hj]
      have hns : needSlash false [] = false := by decide
      rw [pathClean_cons, if_neg hc, ← hj, cleanRun_joinSegs false _ hok, segsOut_fst _ _ _ hR,
        dot_if_ne _ (append_ne_nil_right _ _ hRne)]
      simp only [hns, Bool.false_eq_true, if_false]

/-- The result of cleaning a path of such segments is again a path of such segments,
with the same simple elements. -/
theorem pathClean_joinSegs_shape (segs : List GoString)
    (hok : ∀ s ∈ segs, isPathElement s ∨ s = [] ∨ s = ['.'])
    (hreal : ∃ s ∈ segs, isPathElement s) :
    ∃ segsI, pathClean (joinSegs segs) = joinSegs segsI ∧
      (∀ s ∈ segsI, isPathElement s ∨ s = [] ∨ s = ['.']) ∧
      realSegs segsI = realSegs segs ∧
      ((joinSegs segsI).head? = some '/' ↔ (joinSegs segs).head? = some '/') := by
  have hR := realSegs_ne_nil hreal
  have hRreal : ∀ s ∈ realSegs segs, isPathElement s := fun s hs => (mem_realSegs.mp hs).2
  rw [pathClean_joinSegs segs hok hreal]
  by_cases hh : (joinSegs segs).head? = some '/'
  · refine ⟨[] :: realSegs segs, ?_, ?_, ?_, ?_⟩
    · rw [if_pos hh, joinSegs_cons [] _ hR]
      rfl
    · intro s hs
      rcases List.mem_cons.mp hs with h | h
      · exact Or.inr (Or.inl h)
      · exact Or.inl (hRreal s h)
    · have : realSegs ([] :: realSegs segs) = realSegs (realSegs segs) := by
        simp [realSegs, not_isPathElement_nil]
      rw [this, realSegs_realSegs]
    · rw [joinSegs_cons [] _ hR]
      simp [hh]
  · refine ⟨realSegs segs, ?_, fun s hs => Or.inl (hRreal s hs), realSegs_realSegs segs, ?_⟩
    · rw [if_neg hh]; rfl
    · constructor
      · intro h; exact absurd h (joinSegs_real_head _ hR hRreal)
      · intro h; exact absurd h hh

/-- Storage containment: for a key `k` and a name `f` whose segments are simple, empty
or `.`, one at least being simple in each, joining the storage root with
`path.Join(k, f)` gives the directory `path.Join(root, k)`, a `/` and the simple segments
of `f`, whatever the root is. -/
theorem pathJoin_contained (d : GoString) (sk sf : List GoString)
    (hokk : ∀ s ∈ sk, isPathElement s ∨ s = [] ∨ s = ['.'])
    (hrk : ∃ s ∈ sk, isPathElement s)
    (hokf : ∀ s ∈ sf, isPathElement s ∨ s = [] ∨ s = ['.'])
    (hrf : ∃ s ∈ sf, isPathElement s) :
    pathJoin [d, pathJoin [joinSegs sk, joinSegs sf]] =
      pathJoin [d, joinSegs sk] ++ '/' :: joinSegs (realSegs sf) := by
  have hkne : joinSegs sk ≠ [] := joinSegs_ne_nil hrk
  have hklen : 0 < (joinSegs sk).length := List.length_pos.mpr hkne
  have hskne : sk ≠ [] := by obtain ⟨s, hs, -⟩ := hrk; exact List.ne_nil_of_mem hs
  have hsfne : sf ≠ [] := by obtain ⟨s, hs, -⟩ := hrf; exact List.ne_nil_of_mem hs
  have hRk := realSegs_ne_nil hrk
  have hRf := realSegs_ne_nil hrf
  have hokkf : ∀ s ∈ sk ++ sf, isPathElement s ∨ s = [] ∨ s = ['.'] := by
    intro s hs
    rcases List.mem_append.mp hs with h | h
    · exact hokk s h
    · exact hokf s h
  have hrkf : ∃ s ∈ sk ++ sf, isPathElement s := by
    obtain ⟨s, hs, hp⟩ := hrk
    exact ⟨s, List.mem_append_left _ hs, hp⟩
  have hinner : pathJoin [joinSegs sk, joinSegs sf] = pathClean (joinSegs (sk ++ sf)) := by
    rw [joinSegs_append sk sf hskne hsfne]
    simp [pathJoin, hkne, hklen]
  obtain ⟨segsI, hI, hokI, hRI, hheadI⟩ := pathClean_joinSegs_shape (sk ++ sf) hokkf hrkf
  rw [realSegs_append] at hRI
  have hrI : ∃ s ∈ segsI, isPathElement s := by
    have hne : realSegs segsI ≠ [] := by rw [hRI]; simp [hRk]
    obtain ⟨s, hs⟩ := List.exists_mem_of_ne_nil _ hne
    exact ⟨s, (mem_realSegs.mp hs).1, (mem_realSegs.mp hs).2⟩
  have hIne : joinSegs segsI ≠ [] := joinSegs_ne_nil hrI
  have hjR : joinSegs (realSegs sk ++ realSegs sf) =
      joinSegs (realSegs sk) ++ '/' :: joinSegs (realSegs sf) :=
    joinSegs_append _ _ hRk hRf
  have hRkne' : joinSegs (realSegs sk) ≠ [] :=
    joinSegs_ne_nil (by
      obtain ⟨s, hs⟩ := List.exists_mem_of_ne_nil _ hRk
      exact ⟨s, hs, (mem_realSegs.mp hs).2⟩)
  rw [hinner, hI]
  cases d with
  | nil =>
    have h1 : pathJoin [[], joinSegs segsI] = pathClean (joinSegs segsI) := by
      simp [pathJoin, hIne]
    have h2 : pathJoin [[], joinSegs sk] = pathClean (joinSegs sk) := by
      simp [pathJoin, hkne]
    have hheadk : (joinSegs (sk ++ sf)).head? = (joinSegs sk).head? := by
      rw [joinSegs_append sk sf hskne hsfne]
      cases hk : joinSegs sk with
      | nil => exact absurd hk hkne
      | cons c r => rfl
    rw [h1, h2, pathClean_joinSegs segsI hokI hrI, pathClean_joinSegs sk hokk hrk, hRI, hjR]
    by_cases hh : (joinSegs sk).head? = some '/'
    · rw [if_pos hh, if_pos (hheadI.mpr (hheadk ▸ hh))]
      simp
    · rw [if_neg hh, if_neg (fun h => hh (hheadk ▸ hheadI.mp h))]
      simp
  | cons c cs =>
    have h1 : pathJoin [c :: cs, joinSegs segsI] =
        pathClean (c :: (cs ++ '/' :: joinSegs segsI)) := by
      simp [pathJoin]
    have h2 : pathJoin [c :: cs, joinSegs sk] = pathClean (c :: (cs ++ '/' :: joinSegs sk)) := by
      simp [pathJoin]
    rw [h1, h2, pathClean_cons, pathClean_cons]
    by_cases hc : c = '/'
    · rw [if_pos hc, if_pos hc, cleanRun_sep_joinSegs true cs segsI hokI,
        cleanRun_sep_joinSegs true cs sk hokk]
      have hRIne : realSegs segsI ≠ [] := by rw [hRI]; simp [hRk]
      rw [segsOut_fst _ _ _ hRIne, segsOut_fst _ _ _ hRk, hRI, hjR,
        dot_if_ne _ (append_ne_nil_right _ _ (by simp)),
        dot_if_ne _ (append_ne_nil_right _ _ hRkne')]
      simp
    · rw [if_neg hc, if_neg hc]
      have e1 : c :: (cs ++ '/' :: joinSegs segsI) = (c :: cs) ++ '/' :: joinSegs segsI := by
        simp
      have e2 : c :: (cs ++ '/' :: joinSegs sk) = (c :: cs) ++ '/' :: joinSegs sk := by simp
      rw [e1, e2, cleanRun_sep_joinSegs false _ segsI hokI,
        cleanRun_sep_joinSegs false _ sk hokk]
      have hRIne : realSegs segsI ≠ [] := by rw [hRI]; simp [hRk]
      rw [segsOut_fst _ _ _ hRIne, segsOut_fst _ _ _ hRk, hRI, hjR,
        dot_if_ne _ (append_ne_nil_right _ _ (by simp)),
        dot_if_ne _ (append_ne_nil_right _ _ hRkne')]
      simp

/-! ## Naming resolver -/

theorem fileExist_iff (env : Env) (files : List GoString) (p : GoString) :
    fileExist env files p = true ↔ (env.statError p = true ∨ p ∈ files) := by
  simp only [fileExist, osStat]
  by_cases hs : env.statError p = true
  · simp [hs]
  · by_cases hm : p ∈ files
    · simp [hs, hm]
    · simp [hs, hm]

theorem fileExist_false_iff (env : Env) (files : List GoString) (p : GoString) :
    fileExist env files p = false ↔ (env.statError p = false ∧ p ∉ files) := by
  rw [← Bool.not_eq_true, fileExist_iff]
  constructor
  · intro h
    exact ⟨by simpa using fun hs => h (Or.inl hs), fun hm => h (Or.inr hm)⟩
  · rintro ⟨h1, h2⟩ (h | h)
    · rw [h1] at h; exact Bool.false_ne_true h
    · exact h2 h

theorem probeLoop_some (env : Env) (files : List GoString) (fn : GoString) :
    ∀ (fuel start i : Nat), probeLoop env files fn fuel start = some i →
      start ≤ i ∧ i < start + fuel ∧ fileExist env files (sprintfSD fn i) = false ∧
      ∀ j, start ≤ j → j < i → fileExist env files (sprintfSD fn j) = true := by
  intro fuel
  induction fuel with
  | zero => intro start i h; simp [probeLoop] at h
  | succ fuel ih =>
    intro start i h
    simp only [probeLoop] at h
    by_cases he : fileExist env files (sprintfSD fn start) = true
    · simp only [he, Bool.not_true, Bool.false_eq_true, if_false] at h
      obtain ⟨h1, h2, h3, h4⟩ := ih (start + 1) i h
      refine ⟨by omega, by omega, h3, ?_⟩
      intro j hj1 hj2
      by_cases hjs : j = start
      · subst hjs; exact he
      · exact h4 j (by omega) hj2
    · have he' : fileExist env files (sprintfSD fn start) = false := by simpa using he
      simp only [he', Bool.not_false, if_true, Option.some.injEq] at h
      subst h
      exact ⟨le_refl _, by omega, he', fun j hj1 hj2 => by omega⟩

theorem probeLoop_none (env : Env) (files : List GoString) (fn : GoString) :
    ∀ (fuel start : Nat), probeLoop env files fn fuel start = none →
      ∀ j, start ≤ j → j < start + fuel → fileExist env files (sprintfSD fn j) = true := by
  intro fuel
  induction fuel with
  | zero => intro start _ j h1 h2; omega
  | succ fuel ih =>
    intro start h j hj1 hj2
    simp only [probeLoop] at h
    by_cases he : fileExist env files (sprintfSD fn start) = true
    · simp only [he, Bool.not_true, Bool.false_eq_true, if_false] at h
      by_cases hjs : j = start
      · subst hjs; exact he
      · exact ih (start + 1) h j (by omega) (by omega)
    · have he' : fileExist env files (sprintfSD fn start) = false := by simpa using he
      simp [he'] at h

/-- More fuel does not change the result of a probing loop that has left. -/
theorem probeLoop_mono (env : Env) (files : List GoString) (fn : GoString) :
    ∀ (fuel fuel' start i : Nat), probeLoop env files fn fuel start = some i → fuel ≤ fuel' →
      probeLoop env files fn fuel' start = some i := by
  intro fuel
  induction fuel with
  | zero => intro fuel' start i h; simp [probeLoop] at h
  | succ fuel ih =>
    intro fuel' start i h hle
    cases fuel' with
    | zero => omega
    | succ fuel' =>
      simp only [probeLoop] at h ⊢
      by_cases he : fileExist env files (sprintfSD fn start) = true
      · simp only [he, Bool.not_true, Bool.false_eq_true, if_false] at h ⊢
        exact ih fuel' (start + 1) i h (by omega)
      · have he' : fileExist env files (sprintfSD fn start) = false := by simpa using he
        simp only [he', Bool.not_false, if_true] at h ⊢
        exact h

/-- When `fileExist` holds for every numbered variant, the probing loop never leaves. -/
theorem probeLoop_forever (env : Env) (files : List GoString) (fn : GoString)
    (hall : ∀ i, fileExist env files (sprintfSD fn i) = true) :
    ∀ (fuel start : Nat), probeLoop env files fn fuel start = none := by
  intro fuel
  induction fuel with
  | zero => intro start; rfl
  | succ fuel ih =>
    intro start
    simp only [probeLoop, hall start, Bool.not_true, Bool.false_eq_true, if_false]
    exact ih (start + 1)

/-- Numbered variants that are all among finitely many paths are at most as many. -/
theorem variants_le (fn : GoString) (E : List GoString) (i : Nat)
    (h : ∀ j, j < i → sprintfSD fn j ∈ E) : i ≤ E.length := by
  have hnd : ((List.range i).map (sprintfSD fn)).Nodup :=
    (List.nodup_range _).map (sprintfSD_injective fn)
  have hsub : (List.range i).map (sprintfSD fn) ⊆ E := by
    intro p hp
    obtain ⟨j, hj, rfl⟩ := List.mem_map.mp hp
    exact h j (List.mem_range.mp hj)
  have hle := (List.subperm_of_subset hnd hsub).length_le
  simpa using hle

/-- When `fileExist` holds on finitely many paths only, the probing loop leaves through
its `break` within one iteration more than their number. -/
theorem probeLoop_finite (env : Env) (files : List GoString) (fn : GoString)
    (E : List GoString) (hE : ∀ p, fileExist env files p = true → p ∈ E) (fuel : Nat)
    (hfuel : E.length < fuel) :
    ∃ i, probeLoop env files fn fuel 0 = some i := by
  cases h : probeLoop env files fn fuel 0 with
  | some i => exact ⟨i, rfl⟩
  | none =>
    exfalso
    have hall := probeLoop_none env files fn _ _ h
    have := variants_le fn E fuel (fun j hj => hE _ (hall j (Nat.zero_le _) (by omega)))
    omega

/-- What `resolveName` answers when it answers: a path for which `fileExist` fails, the
joined path when `fileExist` fails for it, and otherwise its first numbered variant for
which `fileExist` fails. -/
theorem resolveName_spec (cfg : Config) (env : Env) (fuel : Nat) (files : List GoString)
    (f p : GoString) (h : resolveName cfg env fuel files f = some p) :
    fileExist env files p = false ∧ isCandidate cfg f p ∧
      (fileExist env files (pathJoin [cfg.DataDirectory, f]) = false →
        p = pathJoin [cfg.DataDirectory, f]) ∧
      (fileExist env files (pathJoin [cfg.DataDirectory, f]) = true →
        ∃ i, p = sprintfSD (pathJoin [cfg.DataDirectory, f]) i ∧
          ∀ j, j < i → fileExist env files (sprintfSD (pathJoin [cfg.DataDirectory, f]) j) = true) := by
  simp only [resolveName] at h
  by_cases hb : fileExist env files (pathJoin [cfg.DataDirectory, f]) = true
  · simp only [hb, if_true, Option.map_eq_some'] at h
    obtain ⟨i, hi, rfl⟩ := h
    obtain ⟨-, -, h3, h4⟩ := probeLoop_some _ _ _ _ _ _ hi
    refine ⟨h3, Or.inr ⟨i, rfl⟩, ?_, fun _ => ⟨i, rfl, fun j hj => h4 j (Nat.zero_le _) hj⟩⟩
    intro hf; rw [hb] at hf; exact absurd hf (by simp)
  · have hb' : fileExist env files (pathJoin [cfg.DataDirectory, f]) = false := by
      simpa using hb
    simp only [hb', Bool.false_eq_true, if_false, Option.some.injEq] at h
    subst h
    exact ⟨hb', Or.inl rfl, fun _ => rfl, fun hf => absurd hf hb⟩

theorem resolveName_returns (cfg : Config) (env : Env) (fuel : Nat) (files : List GoString)
    (f : GoString) (E : List GoString) (hE : ∀ p, fileExist env files p = true → p ∈ E)
    (hfuel : E.length < fuel) : ∃ p, resolveName cfg env fuel files f = some p := by
  simp only [resolveName]
  by_cases hb : fileExist env files (pathJoin [cfg.DataDirectory, f]) = true
  · obtain ⟨i, hi⟩ := probeLoop_finite env files (pathJoin [cfg.DataDirectory, f]) E hE fuel hfuel
    exact ⟨sprintfSD (pathJoin [cfg.DataDirectory, f]) i,
      by simp only [hb, if_true, hi, Option.map_some']⟩
  · have hb' : fileExist env files (pathJoin [cfg.DataDirectory, f]) = false := by
      simpa using hb
    exact ⟨pathJoin [cfg.DataDirectory, f], by simp only [hb', Bool.false_eq_true, if_false]⟩

theorem resolveName_mono (cfg : Config) (env : Env) (fuel fuel' : Nat)
    (files : List GoString) (f p : GoString)
    (h : resolveName cfg env fuel files f = some p) (hle : fuel ≤ fuel') :
    resolveName cfg env fuel' files f = some p := by
  simp only [resolveName] at h ⊢
  by_cases hb : fileExist env files (pathJoin [cfg.DataDirectory, f]) = true
  · simp only [hb, if_true, Option.map_eq_some'] at h ⊢
    obtain ⟨i, hi, rfl⟩ := h
    exact ⟨i, probeLoop_mono _ _ _ _ _ _ _ hi hle, rfl⟩
  · have hb' : fileExist env files (pathJoin [cfg.DataDirectory, f]) = false := by
      simpa using hb
    simpa only [hb', Bool.false_eq_true, if_false] using h

/-- When `fileExist` holds for the joined path and for all its numbered variants,
`resolveName` never answers. -/
theorem resolveName_forever (cfg : Config) (env : Env) (files : List GoString) (f : GoString)
    (hb : fileExist env files (pathJoin [cfg.DataDirectory, f]) = true)
    (hall : ∀ i, fileExist env files (sprintfSD (pathJoin [cfg.DataDirectory, f]) i) = true)
    (fuel : Nat) : resolveName cfg env fuel files f = none := by
  simp only [resolveName, hb, if_true, probeLoop_forever env files _ hall, Option.map_none']

theorem saveFile_eq (cfg : Config) (env : Env) (fuel : Nat) (st : State)
    (reader f p : GoString) (hp : resolveName cfg env fuel st.files f = some p) :
    saveFile cfg env fuel st reader f =
      some (p, if env.canCreate p then
          { st with files := p :: st.files, written := st.written ++ [(p, reader)] }
        else st.logged (.createError p)) := by
  simp only [saveFile, hp]
  split_ifs <;> rfl

theorem saveFile_none (cfg : Config) (env : Env) (fuel : Nat) (st : State)
    (reader f : GoString) (hp : resolveName cfg env fuel st.files f = none) :
    saveFile cfg env fuel st reader f = none := by
  simp only [saveFile, hp]

theorem saveFile_resolved (cfg : Config) (env : Env) (fuel : Nat) (st : State)
    (reader f p : GoString) (st' : State)
    (h : saveFile cfg env fuel st reader f = some (p, st')) :
    resolveName cfg env fuel st.files f = some p := by
  cases hr : resolveName cfg env fuel st.files f with
  | none => rw [saveFile_none cfg env fuel st reader f hr] at h; exact absurd h (by simp)
  | some q =>
    rw [saveFile_eq cfg env fuel st reader f q hr] at h
    simp only [Option.some.injEq, Prod.mk.injEq] at h
    rw [h.1]

/-! ## Claim on the router -/

/-- C1. Router: the routing loop of `processMail` selects the first key of the ordered key
list (lowest index) that is a literal prefix of the subject, a key is selected whenever
some key is a prefix, and `dirname` keeps its zero value when no key is a prefix. -/
theorem routeLoop_first_prefix_selected (s : GoString) (K : List GoString) :
    (∀ i (hi : i < K.length), K[i] <+: s → (∀ j (hj : j < i), ¬ K[j] <+: s) →
      routeLoop s K = K[i]) ∧
    ((∃ k ∈ K, k <+: s) →
      ∃ i, ∃ hi : i < K.length, routeLoop s K = K[i] ∧ K[i] <+: s ∧
        ∀ j (hj : j < i), ¬ K[j] <+: s) ∧
    ((∀ k ∈ K, ¬ k <+: s) → routeLoop s K = []) := by
  refine ⟨fun i hi hp hlow => routeLoop_first s K i hi hp hlow, ?_, routeLoop_none s K⟩
  intro hex
  have hex' : ∃ i, ∃ hi : i < K.length, K[i] <+: s := by
    obtain ⟨k, hk, hp⟩ := hex
    obtain ⟨i, hi, rfl⟩ := List.getElem_of_mem hk
    exact ⟨i, hi, hp⟩
  classical
  have hfind := Nat.find_spec hex'
  obtain ⟨hi, hp⟩ := hfind
  have hlow : ∀ j (hj : j < Nat.find hex'), ¬ K[j] <+: s := by
    intro j hj hq
    exact Nat.find_min hex' hj ⟨by omega, hq⟩
  exact ⟨Nat.find hex', hi, routeLoop_first s K _ hi hp hlow, hp, hlow⟩

/-- C1 at the subject `INVOICE monthly report` with the keys `INVOICE`, `RECEIPT`. -/
theorem routeLoop_first_prefix_selected_witness :
    routeLoop "INVOICE monthly report".toList ["INVOICE".toList, "RECEIPT".toList] =
      "INVOICE".toList :=
  (routeLoop_first_prefix_selected "INVOICE monthly report".toList
    ["INVOICE".toList, "RECEIPT".toList]).1 0 (by decide) (by decide)
    (fun j hj => absurd hj (Nat.not_lt_zero j))

/-! ## Batch selector -/

theorem validLoop_iff (s : GoString) (K : List GoString) :
    validLoop s K = true ↔ ∃ k ∈ K, k <+: s := by
  induction K with
  | nil => simp [validLoop]
  | cons k K ih =>
    by_cases hk : hasPrefix s k = true
    · have hv : validLoop s (k :: K) = true := by simp [validLoop, hk]
      exact ⟨fun _ => ⟨k, List.mem_cons_self _ _, (hasPrefix_iff s k).mp hk⟩, fun _ => hv⟩
    · have hk' : ¬ k <+: s := fun h => hk ((hasPrefix_iff s k).mpr h)
      have hv : validLoop s (k :: K) = validLoop s K := by simp [validLoop, hk]
      rw [hv, ih]
      simp only [List.mem_cons]
      constructor
      · rintro ⟨k', h1, h2⟩; exact ⟨k', Or.inr h1, h2⟩
      · rintro ⟨k', h1 | h1, h2⟩
        · subst h1; exact absurd h2 hk'
        · exact ⟨k', h1, h2⟩

theorem classifySpec_isSome (s : GoString) (K : List GoString) (hK : [] ∉ K) :
    (classifySpec s K).isSome = true ↔ ∃ k ∈ K, k <+: s := by
  by_cases hs : s = []
  · subst hs
    simp only [classifySpec, if_true, Option.isSome_none, Bool.false_eq_true, false_iff]
    rintro ⟨k, hk, hp⟩
    have : k = [] := List.prefix_nil.mp hp
    exact hK (this ▸ hk)
  · simp only [classifySpec, hs, if_false, List.find?_isSome, List.isPrefixOf_iff_prefix]

theorem selectLoop_eq (cfg : Config) (messages : List (Option Message)) :
    ∀ ret, selectLoop cfg messages ret =
      ret ++ messages.filterMap (fun m =>
        match m with
        | none => none
        | some msg =>
          match msg.Envelope with
          | none => none
          | some e =>
            if (∃ k ∈ cfg.Keys, k <+: e.Subject) then some msg.SeqNum else none) := by
  induction messages with
  | nil => intro ret; simp [selectLoop]
  | cons m rest ih =>
    intro ret
    cases m with
    | none => simp [selectLoop, ih]
    | some msg =>
      cases he : msg.Envelope with
      | none => simp [selectLoop, he, ih]
      | some e =>
        by_cases hv : validLoop e.Subject cfg.Keys = true
        · have hv' := (validLoop_iff _ _).mp hv
          simp only [selectLoop, he, hv, if_true, ih, List.filterMap_cons, hv',
            List.append_assoc, List.singleton_append]
        · have hv' : ¬ ∃ k ∈ cfg.Keys, k <+: e.Subject :=
            fun h => hv ((validLoop_iff _ _).mpr h)
          have hvf : validLoop e.Subject cfg.Keys = false := by simpa using hv
          simp only [selectLoop, he, hvf, Bool.false_eq_true, if_false, ih,
            List.filterMap_cons, hv']

/-- C4 as stated fails: with the empty string among the keys, a message with an empty
subject is returned, while the Router contract counts an empty subject as no match. -/
theorem getValidSeqNumber_empty_subject_counterexample :
    getValidSeqNumber ⟨[], [[]]⟩ (some [7]) [some ⟨7, some ⟨[]⟩, .missing⟩] = [7] ∧
    selectSpec [[]] [some ⟨7, some ⟨[]⟩, .missing⟩] = [] := by
  decide

/-- C4, amended. Batch selector: after a successful search, `getValidSeqNumber` returns
exactly, in the order yielded, the sequence numbers of the messages that are non-nil,
have a non-nil envelope and whose subject has some configured key as a prefix; an empty
subject matches only the empty key, so when no key is empty the result is the selection
of the Router contract, in which an empty subject is no match. -/
theorem getValidSeqNumber_selects (cfg : Config) (uids : List Nat)
    (messages : List (Option Message)) :
    getValidSeqNumber cfg (some uids) messages =
      messages.filterMap (fun m =>
        match m with
        | none => none
        | some msg =>
          match msg.Envelope with
          | none => none
          | some e =>
            if (∃ k ∈ cfg.Keys, k <+: e.Subject) then some msg.SeqNum else none) ∧
    ([] ∉ cfg.Keys → getValidSeqNumber cfg (some uids) messages = selectSpec cfg.Keys messages) := by
  have h1 := selectLoop_eq cfg messages []
  simp only [List.nil_append] at h1
  refine ⟨h1, ?_⟩
  intro hK
  simp only [getValidSeqNumber, h1, selectSpec]
  congr 1
  funext m
  cases m with
  | none => rfl
  | some msg =>
    cases he : msg.Envelope with
    | none => simp only [he]
    | some e =>
      simp only [he]
      by_cases hp : ∃ k ∈ cfg.Keys, k <+: e.Subject
      · rw [if_pos hp, if_pos ((classifySpec_isSome e.Subject cfg.Keys hK).mpr hp)]
      · have hn : ¬ (classifySpec e.Subject cfg.Keys).isSome = true :=
          fun h => hp ((classifySpec_isSome e.Subject cfg.Keys hK).mp h)
        rw [if_neg hp, if_neg hn]

/-- C4, amended, at the keys `INVOICE`, `RECEIPT`: of a nil message, a message without
envelope, one with subject `INVOICE 3`, one with an empty subject and one with subject
`hello`, only the third is returned. -/
theorem getValidSeqNumber_selects_witness :
    getValidSeqNumber ⟨[], ["INVOICE".toList, "RECEIPT".toList]⟩ (some [1, 2, 3, 4])
      [none, some ⟨1, none, .missing⟩, some ⟨2, some ⟨"INVOICE 3".toList⟩, .missing⟩,
        some ⟨3, some ⟨[]⟩, .missing⟩, some ⟨4, some ⟨"hello".toList⟩, .missing⟩] =
    selectSpec ["INVOICE".toList, "RECEIPT".toList]
      [none, some ⟨1, none, .missing⟩, some ⟨2, some ⟨"INVOICE 3".toList⟩, .missing⟩,
        some ⟨3, some ⟨[]⟩, .missing⟩, some ⟨4, some ⟨"hello".toList⟩, .missing⟩] :=
  (getValidSeqNumber_selects ⟨[], ["INVOICE".toList, "RECEIPT".toList]⟩ [1, 2, 3, 4] _).2
    (by decide)

/-! ## Effects of `saveFile` -/

@[simp] theorem logged_files (st : State) (e : LogEvent) : (st.logged e).files = st.files := rfl

@[simp] theorem logged_written (st : State) (e : LogEvent) :
    (st.logged e).written = st.written := rfl

@[simp] theorem logged_replies (st : State) (e : LogEvent) :
    (st.logged e).replies = st.replies := rfl

@[simp] theorem logged_log (st : State) (e : LogEvent) : (st.logged e).log = st.log ++ [e] := rfl

theorem sameEffects_refl (a : State) : a.sameEffects a := ⟨rfl, rfl, rfl⟩

theorem sameEffects_symm {a b : State} (h : a.sameEffects b) : b.sameEffects a :=
  ⟨h.1.symm, h.2.1.symm, h.2.2.symm⟩

theorem sameEffects_trans {a b c : State} (h1 : a.sameEffects b) (h2 : b.sameEffects c) :
    a.sameEffects c :=
  ⟨h1.1.trans h2.1, h1.2.1.trans h2.2.1, h1.2.2.trans h2.2.2⟩

theorem sameEffects_logged (a : State) (e : LogEvent) : (a.logged e).sameEffects a :=
  ⟨rfl, rfl, rfl⟩

theorem sameEffects_logged_both {a b : State} (h : a.sameEffects b) (e e' : LogEvent) :
    (a.logged e).sameEffects (b.logged e') :=
  sameEffects_trans (sameEffects_logged _ _)
    (sameEffects_trans h (sameEffects_symm (sameEffects_logged _ _)))

/-- What one returning call of `saveFile` does: it returns the resolved name, which is a
candidate for its argument and a path for which `fileExist` fails; when the creation
succeeds the file is added with the bytes of the reader, otherwise only a line is
logged. -/
theorem saveFile_effects (cfg : Config) (env : Env) (fuel : Nat) (st : State)
    (reader f p : GoString) (st' : State)
    (h : saveFile cfg env fuel st reader f = some (p, st')) :
    resolveName cfg env fuel st.files f = some p ∧ isCandidate cfg f p ∧
      fileExist env st.files p = false ∧ st'.replies = st.replies ∧
      (env.canCreate p = true →
        st'.files = p :: st.files ∧ st'.written = st.written ++ [(p, reader)] ∧
          st'.log = st.log) ∧
      (env.canCreate p = false →
        st'.files = st.files ∧ st'.written = st.written ∧
          st'.log = st.log ++ [.createError p]) := by
  have hp := saveFile_resolved cfg env fuel st reader f p st' h
  obtain ⟨h1, h2, -, -⟩ := resolveName_spec cfg env fuel st.files f p hp
  rw [saveFile_eq cfg env fuel st reader f p hp] at h
  simp only [Option.some.injEq, Prod.mk.injEq, true_and] at h
  subst h
  refine ⟨hp, h2, h1, ?_, ?_, ?_⟩
  · split_ifs <;> rfl
  · intro hc; rw [if_pos hc]; exact ⟨rfl, rfl, rfl⟩
  · intro hc
    rw [if_neg (by rw [hc]; exact Bool.false_ne_true)]
    exact ⟨rfl, rfl, rfl⟩

/-- The path returned by `saveFile` and its effects on files do not depend on the log. -/
theorem saveFile_sameEffects (cfg : Config) (env : Env) (fuel : Nat) (a b : State)
    (reader f : GoString) (hab : a.sameEffects b) :
    (saveFile cfg env fuel a reader f = none ∧ saveFile cfg env fuel b reader f = none) ∨
    ∃ p a' b', saveFile cfg env fuel a reader f = some (p, a') ∧
      saveFile cfg env fuel b reader f = some (p, b') ∧ a'.sameEffects b' := by
  cases hr : resolveName cfg env fuel a.files f with
  | none =>
    left
    exact ⟨saveFile_none cfg env fuel a reader f hr,
      saveFile_none cfg env fuel b reader f (by rw [← hab.1]; exact hr)⟩
  | some p =>
    right
    have h1 := saveFile_eq cfg env fuel a reader f p hr
    have h2 := saveFile_eq cfg env fuel b reader f p (by rw [← hab.1]; exact hr)
    refine ⟨p, _, _, h1, h2, ?_⟩
    by_cases hc : env.canCreate p = true
    · rw [if_pos hc, if_pos hc]
      exact ⟨by simp [hab.1], by simp [hab.2.1], hab.2.2⟩
    · rw [if_neg hc, if_neg hc]
      exact sameEffects_logged_both hab _ _

theorem saveFile_mono (cfg : Config) (env : Env) (fuel fuel' : Nat) (st : State)
    (reader f : GoString) (r : GoString × State)
    (h : saveFile cfg env fuel st reader f = some r) (hle : fuel ≤ fuel') :
    saveFile cfg env fuel' st reader f = some r := by
  obtain ⟨p, st'⟩ := r
  have hp := saveFile_resolved cfg env fuel st reader f p st' h
  rw [saveFile_eq cfg env fuel st reader f p hp] at h
  rw [saveFile_eq cfg env fuel' st reader f p (resolveName_mono _ _ _ _ _ _ _ hp hle)]
  exact h

/-- Without `os.Stat` errors other than "does not exist", `saveFile` returns once the
fuel exceeds the number of existing paths, and adds at most one path. -/
theorem saveFile_returns (cfg : Config) (env : Env) (fuel : Nat) (st : State)
    (reader f : GoString) (hstat : ∀ p, env.statError p = false)
    (hfuel : st.files.length < fuel) :
    ∃ p st', saveFile cfg env fuel st reader f = some (p, st') ∧
      st'.files.length ≤ st.files.length + 1 := by
  have hE : ∀ p, fileExist env st.files p = true → p ∈ st.files := by
    intro p hp
    rcases (fileExist_iff env st.files p).mp hp with h | h
    · rw [hstat p] at h; exact absurd h Bool.false_ne_true
    · exact h
  obtain ⟨p, hp⟩ := resolveName_returns cfg env fuel st.files f st.files hE hfuel
  refine ⟨p, _, saveFile_eq cfg env fuel st reader f p hp, ?_⟩
  split_ifs
  · simp
  · simp

theorem saveFiles_cons_some (cfg : Config) (env : Env) (fuel : Nat) (fn reader : GoString)
    (rest : List (GoString × GoString)) (st : State)
    (tr1 : List (List GoString × GoString)) (st1 : State)
    (h : saveFiles cfg env fuel ((fn, reader) :: rest) st = some (tr1, st1)) :
    ∃ p sa tr, saveFile cfg env fuel st reader fn = some (p, sa) ∧
      saveFiles cfg env fuel rest sa = some (tr, st1) ∧ tr1 = (st.files, p) :: tr := by
  simp only [saveFiles] at h
  cases hs : saveFile cfg env fuel st reader fn with
  | none => simp [hs] at h
  | some r =>
    obtain ⟨p, sa⟩ := r
    cases hr : saveFiles cfg env fuel rest sa with
    | none => simp [hs, hr] at h
    | some r2 =>
      obtain ⟨tr, sb⟩ := r2
      simp only [hs, hr, Option.some.injEq, Prod.mk.injEq] at h
      exact ⟨p, sa, tr, rfl, by rw [← h.2]; exact hr, h.1.symm⟩

theorem saveFiles_trace (cfg : Config) (env : Env) (fuel : Nat)
    (hcreate : ∀ p, env.canCreate p = true) :
    ∀ (calls : List (GoString × GoString)) (st : State) tr st',
      saveFiles cfg env fuel calls st = some (tr, st') →
        tr.length = calls.length ∧
        (∀ e ∈ tr, e.2 ∉ e.1) ∧ (tr.map Prod.snd).Nodup ∧
        (∀ p ∈ tr.map Prod.snd, p ∉ st.files) ∧
        (∀ p, p ∈ st'.files ↔ p ∈ tr.map Prod.snd ∨ p ∈ st.files) ∧
        st'.written = st.written ++ (tr.map Prod.snd).zip (calls.map Prod.snd) := by
  intro calls
  induction calls with
  | nil =>
    intro st tr st' h
    simp only [saveFiles, Option.some.injEq, Prod.mk.injEq] at h
    obtain ⟨rfl, rfl⟩ := h
    simp
  | cons c rest ih =>
    intro st tr1 st1 h
    obtain ⟨fn, reader⟩ := c
    obtain ⟨p, sa, tr, hs, hr, rfl⟩ := saveFiles_cons_some cfg env fuel fn reader rest st tr1 st1 h
    obtain ⟨-, -, hnot, -, hok, -⟩ := saveFile_effects cfg env fuel st reader fn p sa hs
    obtain ⟨hf, hw, -⟩ := hok (hcreate p)
    have hnot' : p ∉ st.files := ((fileExist_false_iff env st.files p).mp hnot).2
    obtain ⟨h2, h3, h4, h5, h6, h7⟩ := ih sa tr st1 hr
    refine ⟨by simp [h2], ?_, ?_, ?_, ?_, ?_⟩
    · intro e he
      rcases List.mem_cons.mp he with rfl | he
      · exact hnot'
      · exact h3 e he
    · simp only [List.map_cons, List.nodup_cons]
      exact ⟨fun hm => h5 p hm (by rw [hf]; simp), h4⟩
    · intro q hq
      simp only [List.map_cons, List.mem_cons] at hq
      rcases hq with rfl | hq
      · exact hnot'
      · intro hm; exact h5 q hq (by rw [hf]; simp [hm])
    · intro q
      rw [h6 q, hf]
      simp only [List.map_cons, List.mem_cons]
      tauto
    · rw [h7, hw]; simp

theorem saveFiles_returns (cfg : Config) (env : Env) (fuel : Nat)
    (hstat : ∀ p, env.statError p = false) :
    ∀ (calls : List (GoString × GoString)) (st : State),
      st.files.length + calls.length < fuel →
        ∃ tr st', saveFiles cfg env fuel calls st = some (tr, st') := by
  intro calls
  induction calls with
  | nil => intro st _; exact ⟨[], st, rfl⟩
  | cons c rest ih =>
    intro st hfuel
    obtain ⟨fn, reader⟩ := c
    simp only [List.length_cons] at hfuel
    obtain ⟨p, sa, hs, hlen⟩ := saveFile_returns cfg env fuel st reader fn hstat (by omega)
    obtain ⟨tr, sb, hr⟩ := ih sa (by omega)
    exact ⟨(st.files, p) :: tr, sb, by simp only [saveFiles, hs, hr]⟩

theorem saveFiles_sameEffects (cfg : Config) (env : Env) (fuel : Nat) :
    ∀ (calls : List (GoString × GoString)) (a b : State) tr a', a.sameEffects b →
      saveFiles cfg env fuel calls a = some (tr, a') →
        ∃ b', saveFiles cfg env fuel calls b = some (tr, b') ∧ a'.sameEffects b' := by
  intro calls
  induction calls with
  | nil =>
    intro a b tr a' hab h
    simp only [saveFiles, Option.some.injEq, Prod.mk.injEq] at h
    obtain ⟨rfl, rfl⟩ := h
    exact ⟨b, rfl, hab⟩
  | cons c rest ih =>
    intro a b tr1 a1 hab h
    obtain ⟨fn, reader⟩ := c
    obtain ⟨p, sa, tr, hs, hr, rfl⟩ := saveFiles_cons_some cfg env fuel fn reader rest a tr1 a1 h
    rcases saveFile_sameEffects cfg env fuel a b reader fn hab with ⟨hn, -⟩ | ⟨q, a', b', k1, k2, k3⟩
    · rw [hn] at hs; exact absurd hs (by simp)
    · rw [hs] at k1
      simp only [Option.some.injEq, Prod.mk.injEq] at k1
      obtain ⟨rfl, rfl⟩ := k1
      obtain ⟨b2, hb2, hsame⟩ := ih sa b' tr a1 k3 hr
      exact ⟨b2, by simp only [saveFiles, k2, hb2, hab.1], hsame⟩

theorem saveFiles_append (cfg : Config) (env : Env) (fuel : Nat) :
    ∀ (c1 c2 : List (GoString × GoString)) (st : State) tr1 st1 tr2 st2,
      saveFiles cfg env fuel c1 st = some (tr1, st1) →
      saveFiles cfg env fuel c2 st1 = some (tr2, st2) →
      saveFiles cfg env fuel (c1 ++ c2) st = some (tr1 ++ tr2, st2) := by
  intro c1
  induction c1 with
  | nil =>
    intro c2 st tr1 st1 tr2 st2 h1 h2
    simp only [saveFiles, Option.some.injEq, Prod.mk.injEq] at h1
    obtain ⟨rfl, rfl⟩ := h1
    simpa using h2
  | cons c rest ih =>
    intro c2 st tr1 st1 tr2 st2 h1 h2
    obtain ⟨fn, reader⟩ := c
    obtain ⟨p, sa, tr, hs, hr, rfl⟩ := saveFiles_cons_some cfg env fuel fn reader rest st tr1 st1 h1
    have := ih c2 sa tr st1 tr2 st2 hr h2
    show saveFiles cfg env fuel ((fn, reader) :: (rest ++ c2)) st = _
    simp only [saveFiles, hs, this, List.cons_append]

theorem replicate_isPathElement (n : Nat) (c : Char) (hc : c ≠ '/') (hn : 3 ≤ n) :
    isPathElement (List.replicate n c) := by
  have hlen : (List.replicate n c).length = n := List.length_replicate n c
  refine ⟨?_, ?_, ?_, ?_⟩
  · intro h; rw [h] at hlen; simp at hlen; omega
  · intro h
    exact hc (List.eq_of_mem_replicate h).symm
  · intro h; rw [h] at hlen; simp at hlen; omega
  · intro h; rw [h] at hlen; simp at hlen; omega

/-! ## Claims on the naming resolver -/

/-- C2 as stated fails: with `data` the only existing path and a name of 300 bytes,
`os.Stat` fails with "name too long" on the joined path and on each of its numbered
variants, `fileExist` answers true for all of them, and `saveFile` never leaves its
probing loop, although the joined path is not an existing path. -/
theorem saveFile_probing_forever_counterexample :
    pathJoin ["data".toList, longName] ∉ ["data".toList] ∧
    ∀ fuel, saveFile ⟨"data".toList, []⟩ nameMaxEnv fuel ⟨["data".toList], [], [], []⟩ []
      longName = none := by
  have hd : isPathElement "data".toList := by decide
  have hl : isPathElement longName := replicate_isPathElement 300 'a' (by decide) (by omega)
  have hbase : pathJoin ["data".toList, longName] = "data".toList ++ '/' :: longName :=
    pathJoin_elements _ _ hd hl
  have hdl : "data".toList.length = 4 := by decide
  have hlen : 255 < (pathJoin ["data".toList, longName]).length := by
    rw [hbase]
    simp only [longName, List.length_append, List.length_cons, List.length_replicate, hdl]
    omega
  refine ⟨?_, ?_⟩
  · intro h
    have h1 : pathJoin ["data".toList, longName] = "data".toList :=
      List.mem_singleton.mp h
    rw [h1, hdl] at hlen
    omega
  · intro fuel
    apply saveFile_none
    apply resolveName_forever
    · rw [fileExist_iff]
      left
      simpa [nameMaxEnv] using hlen
    · intro i
      rw [fileExist_iff]
      left
      have : 255 < (sprintfSD (pathJoin ["data".toList, longName]) i).length := by
        simp only [sprintfSD, List.length_append, List.length_cons]
        omega
      simpa [nameMaxEnv] using this

/-- C2, amended. Naming resolver: when `fileExist` answers true exactly on a finite set
`E` of paths (the existing paths, and the paths whose `os.Stat` fails with another error
than "does not exist"), `saveFile` returns; the path it chooses is the joined path `d/f`
when that is not in `E`, otherwise `d/f-i` for the least `i` such that `d/f-i` is not in
`E` (all of `d/f-0 … d/f-(i-1)` are in `E`, and `i` is at most the size of `E`); in both
cases the chosen path is not in `E`.  For a directory and a file name that are simple
path elements the joined path is literally `d/f`. -/
theorem saveFile_resolves_least (cfg : Config) (env : Env) (fuel : Nat) (st : State)
    (reader f : GoString) (E : List GoString)
    (hE : ∀ p, fileExist env st.files p = true ↔ p ∈ E) (hfuel : E.length < fuel) :
    ∃ p st', saveFile cfg env fuel st reader f = some (p, st') ∧ p ∉ E ∧
      (pathJoin [cfg.DataDirectory, f] ∉ E → p = pathJoin [cfg.DataDirectory, f]) ∧
      (pathJoin [cfg.DataDirectory, f] ∈ E →
        ∃ i, i ≤ E.length ∧ p = sprintfSD (pathJoin [cfg.DataDirectory, f]) i ∧
          ∀ j, j < i → sprintfSD (pathJoin [cfg.DataDirectory, f]) j ∈ E) ∧
      (isPathElement cfg.DataDirectory → isPathElement f →
        pathJoin [cfg.DataDirectory, f] = cfg.DataDirectory ++ '/' :: f) := by
  obtain ⟨p, hp⟩ := resolveName_returns cfg env fuel st.files f E (fun q hq => (hE q).mp hq)
    hfuel
  obtain ⟨h1, -, h3, h4⟩ := resolveName_spec cfg env fuel st.files f p hp
  refine ⟨p, _, saveFile_eq cfg env fuel st reader f p hp, ?_, ?_, ?_,
    fun hd hf => pathJoin_elements _ _ hd hf⟩
  · intro hm
    rw [(hE p).mpr hm] at h1
    exact absurd h1 (by simp)
  · intro hb
    apply h3
    rw [← Bool.not_eq_true]
    exact fun h => hb ((hE _).mp h)
  · intro hb
    obtain ⟨i, hi, hlow⟩ := h4 ((hE _).mpr hb)
    have hlow' : ∀ j, j < i → sprintfSD (pathJoin [cfg.DataDirectory, f]) j ∈ E :=
      fun j hj => (hE _).mp (hlow j hj)
    exact ⟨i, variants_le _ E i hlow', hi, hlow'⟩

/-- C2, amended, with `data/a.txt` and `data/a.txt-0` taken: `saveFile` chooses
`data/a.txt-1`. -/
theorem saveFile_resolves_least_witness :
    (∀ p, fileExist exampleEnv ["data/a.txt".toList, "data/a.txt-0".toList] p = true ↔
      p ∈ ["data/a.txt".toList, "data/a.txt-0".toList]) ∧
    (saveFile ⟨"data".toList, []⟩ exampleEnv 3
        ⟨["data/a.txt".toList, "data/a.txt-0".toList], [], [], []⟩ [] "a.txt".toList).map
      Prod.fst = some "data/a.txt-1".toList ∧
    ∃ p st', saveFile ⟨"data".toList, []⟩ exampleEnv 3
        ⟨["data/a.txt".toList, "data/a.txt-0".toList], [], [], []⟩ [] "a.txt".toList =
          some (p, st') ∧
      p ∉ ["data/a.txt".toList, "data/a.txt-0".toList] := by
  have hE : ∀ p, fileExist exampleEnv ["data/a.txt".toList, "data/a.txt-0".toList] p = true ↔
      p ∈ ["data/a.txt".toList, "data/a.txt-0".toList] := by
    intro p
    rw [fileExist_iff]
    simp [exampleEnv]
  refine ⟨hE, by decide, ?_⟩
  obtain ⟨p, st', h1, h2, -⟩ :=
    saveFile_resolves_least ⟨"data".toList, []⟩ exampleEnv 3
      ⟨["data/a.txt".toList, "data/a.txt-0".toList], [], [], []⟩ [] "a.txt".toList
      ["data/a.txt".toList, "data/a.txt-0".toList] hE (by decide)
  exact ⟨p, st', h1, h2⟩

/-- C3. Sequential collision-freedom: when every creation succeeds, a run of sequential
`saveFile` calls from any set of existing paths returns, at each call, a path that did
not exist before that call; the returned paths are pairwise distinct, none of them
existed at the start, and exactly they are created, each with the bytes of its call.
The run returns when the fuel exceeds the number of paths existing at its end, given
that a path whose `os.Stat` fails with another error than "does not exist" cannot be
created. -/
theorem saveFiles_collision_free (cfg : Config) (env : Env) (fuel : Nat)
    (hcreate : ∀ p, env.canCreate p = true)
    (calls : List (GoString × GoString)) (st : State) :
    (∀ tr st', saveFiles cfg env fuel calls st = some (tr, st') →
      tr.length = calls.length ∧
      (∀ e ∈ tr, e.2 ∉ e.1) ∧ (tr.map Prod.snd).Nodup ∧
      (∀ p ∈ tr.map Prod.snd, p ∉ st.files) ∧
      (∀ p, p ∈ st'.files ↔ p ∈ tr.map Prod.snd ∨ p ∈ st.files) ∧
      st'.written = st.written ++ (tr.map Prod.snd).zip (calls.map Prod.snd)) ∧
    ((∀ p, env.statError p = true → env.canCreate p = false) →
      st.files.length + calls.length < fuel →
      ∃ tr st', saveFiles cfg env fuel calls st = some (tr, st')) := by
  refine ⟨saveFiles_trace cfg env fuel hcreate calls st, ?_⟩
  intro hlaw hfuel
  have hstat : ∀ p, env.statError p = false := by
    intro p
    rw [← Bool.not_eq_true]
    intro h
    have := hlaw p h
    rw [hcreate p] at this
    exact absurd this (by simp)
  exact saveFiles_returns cfg env fuel hstat calls st hfuel

/-- C3 at three saves of `a.txt` into an empty directory: the paths returned are
`a.txt`, `a.txt-0` and `a.txt-1`. -/
theorem saveFiles_collision_free_witness :
    (∀ p, exampleEnv.canCreate p = true) ∧
    (saveFiles ⟨[], []⟩ exampleEnv 4
        [("a.txt".toList, []), ("a.txt".toList, []), ("a.txt".toList, [])]
        ⟨[], [], [], []⟩).map (fun r => r.1.map Prod.snd) =
      some ["a.txt".toList, "a.txt-0".toList, "a.txt-1".toList] ∧
    ∃ tr st', saveFiles ⟨[], []⟩ exampleEnv 4
        [("a.txt".toList, []), ("a.txt".toList, []), ("a.txt".toList, [])]
        ⟨[], [], [], []⟩ = some (tr, st') ∧ tr.length = 3 ∧
      (∀ e ∈ tr, e.2 ∉ e.1) ∧ (tr.map Prod.snd).Nodup := by
  have hc : ∀ p, exampleEnv.canCreate p = true := fun _ => rfl
  have h := saveFiles_collision_free ⟨[], []⟩ exampleEnv 4 hc
    [("a.txt".toList, []), ("a.txt".toList, []), ("a.txt".toList, [])] ⟨[], [], [], []⟩
  obtain ⟨tr, st', hrun⟩ := h.2 (fun _ hp => absurd hp (by simp [exampleEnv])) (by decide)
  obtain ⟨h1, h2, h3, -⟩ := h.1 tr st' hrun
  exact ⟨hc, by decide, tr, st', hrun, h1, h2, h3⟩

/-! ## Extraction pipeline: effects of one part and of the part loop -/

theorem namedAttachments_append (ps qs : List Part) :
    namedAttachments (ps ++ qs) = namedAttachments ps ++ namedAttachments qs := by
  induction ps with
  | nil => rfl
  | cons p rest ih =>
    rcases p with b | ⟨_ | f, body⟩ | _ <;> simp [namedAttachments, ih]

theorem attachmentCalls_append (dn : GoString) (ps qs : List Part) :
    attachmentCalls dn (ps ++ qs) = attachmentCalls dn ps ++ attachmentCalls dn qs := by
  simp [attachmentCalls, namedAttachments_append]

theorem partsEffect_nil (cfg : Config) (env : Env) (fuel : Nat) (dn : GoString)
    (names : List GoString) (st : State) :
    partsEffect cfg env fuel dn [] names st names st := by
  refine ⟨by simp [namedAttachments], rfl, fun _ h => h, fun _ h => h, fun _ h => Or.inl h,
    ?_, ?_, ?_, fun _ h => Or.inl h⟩
  · intro st0 h
    exact ⟨[], st0, rfl, h⟩
  · intro nb h; simp [namedAttachments] at h
  · rintro ⟨b, h⟩; simp at h

theorem partsEffect_append (cfg : Config) (env : Env) (fuel : Nat) (dn : GoString)
    (ps qs : List Part) (n0 n1 n2 : List GoString) (s0 s1 s2 : State)
    (h1 : partsEffect cfg env fuel dn ps n0 s0 n1 s1)
    (h2 : partsEffect cfg env fuel dn qs n1 s1 n2 s2) :
    partsEffect cfg env fuel dn (ps ++ qs) n0 s0 n2 s2 := by
  obtain ⟨a1, a2, a3, a4, a5, a6, a7, a8, a9⟩ := h1
  obtain ⟨b1, b2, b3, b4, b5, b6, b7, b8, b9⟩ := h2
  refine ⟨?_, by rw [b2, a2], fun e he => b3 e (a3 e he), fun w hw => b4 w (a4 w hw),
    ?_, ?_, ?_, ?_, ?_⟩
  · rw [b1, a1, namedAttachments_append, List.map_append, List.append_assoc]
  · intro w hw
    rcases b5 w hw with h | h
    · exact a5 w h
    · exact Or.inr h
  · intro st0 h0
    obtain ⟨tr1, t1, e1, r1⟩ := a6 st0 h0
    obtain ⟨tr2, t2, e2, r2⟩ := b6 t1 r1
    exact ⟨tr1 ++ tr2, t2,
      by rw [attachmentCalls_append]; exact saveFiles_append cfg env fuel _ _ _ _ _ _ _ e1 e2,
      r2⟩
  · intro nb hnb
    rw [namedAttachments_append] at hnb
    rcases List.mem_append.mp hnb with h | h
    · obtain ⟨q, hq, hw | hl⟩ := a7 nb h
      · exact ⟨q, hq, Or.inl ⟨hw.1, b4 _ hw.2⟩⟩
      · exact ⟨q, hq, Or.inr ⟨hl.1, b3 _ hl.2⟩⟩
    · exact b7 nb h
  · rintro ⟨b, hb⟩
    rcases List.mem_append.mp hb with h | h
    · exact b3 _ (a8 ⟨b, h⟩)
    · exact b8 ⟨b, h⟩
  · intro w hw
    rw [namedAttachments_append]
    rcases b9 w hw with h | ⟨nb, hnb, hc⟩
    · rcases a9 w h with h' | ⟨nb, hnb, hc⟩
      · exact Or.inl h'
      · exact Or.inr ⟨nb, List.mem_append_left _ hnb, hc⟩
    · exact Or.inr ⟨nb, List.mem_append_right _ hnb, hc⟩

/-- What handling a named attachment does, when `saveFile` returns. -/
theorem handlePart_named (cfg : Config) (env : Env) (fuel : Nat) (dn f body : GoString)
    (names : List GoString) (st : State) (n1 : List GoString) (s1 : State)
    (h : handlePart cfg env fuel dn (.attachment (some f) body) names st = some (n1, s1)) :
    ∃ q st1, saveFile cfg env fuel (st.logged (.gotAttachment f)) body (pathJoin [dn, f]) =
        some (q, st1) ∧ n1 = names ++ [f] ∧ s1 = st1.logged (.savedTo q) := by
  simp only [handlePart] at h
  cases hs : saveFile cfg env fuel (st.logged (.gotAttachment f)) body (pathJoin [dn, f]) with
  | none => simp [hs] at h
  | some r =>
    obtain ⟨q, st1⟩ := r
    simp only [hs, Option.some.injEq, Prod.mk.injEq] at h
    exact ⟨q, st1, rfl, h.1.symm, h.2.symm⟩

/-- The `switch` of the part loop, when it returns, has the effects of one part. -/
theorem handlePart_spec (cfg : Config) (env : Env) (fuel : Nat) (dn : GoString) (p : Part)
    (names : List GoString) (st : State) (n1 : List GoString) (s1 : State)
    (h : handlePart cfg env fuel dn p names st = some (n1, s1)) :
    partsEffect cfg env fuel dn [p] names st n1 s1 := by
  rcases p with b | ⟨_ | f, body⟩ | _
  · simp only [handlePart, Option.some.injEq, Prod.mk.injEq] at h
    obtain ⟨rfl, rfl⟩ := h
    refine ⟨by simp [namedAttachments], rfl, fun e he => by simp [he], fun _ h => h,
      fun _ h => Or.inl h, ?_, ?_, ?_, fun _ h => Or.inl h⟩
    · intro st0 h
      exact ⟨[], st0, rfl, sameEffects_trans (sameEffects_logged _ _) h⟩
    · intro nb h; simp [namedAttachments] at h
    · rintro ⟨b', h⟩; simp at h
  · simp only [handlePart, Option.some.injEq, Prod.mk.injEq] at h
    obtain ⟨rfl, rfl⟩ := h
    refine ⟨by simp [namedAttachments], rfl, fun e he => by simp [he], fun _ h => h,
      fun _ h => Or.inl h, ?_, ?_, ?_, fun _ h => Or.inl h⟩
    · intro st0 h
      exact ⟨[], st0, rfl, sameEffects_trans (sameEffects_logged _ _) h⟩
    · intro nb h; simp [namedAttachments] at h
    · intro _; simp
  · obtain ⟨q, st1, hs, rfl, rfl⟩ := handlePart_named cfg env fuel dn f body names st n1 s1 h
    obtain ⟨-, hcand, -, hrep, hok, hfail⟩ :=
      saveFile_effects cfg env fuel (st.logged (.gotAttachment f)) body (pathJoin [dn, f])
        q st1 hs
    have hlog : ∀ e ∈ st.log, e ∈ st1.log := by
      intro e he
      cases hc : env.canCreate q with
      | true => rw [(hok hc).2.2]; simp [he]
      | false => rw [(hfail hc).2.2]; simp [he]
    have hwr : ∀ w ∈ st.written, w ∈ st1.written := by
      intro w hw
      cases hc : env.canCreate q with
      | true => rw [(hok hc).2.1]; simp [hw]
      | false => rw [(hfail hc).2.1]; simpa using hw
    refine ⟨by simp [namedAttachments], by simpa using hrep,
      fun e he => by simp [hlog e he], fun w hw => by simpa using hwr w hw, ?_, ?_, ?_, ?_, ?_⟩
    · intro w hw
      simp only [logged_written] at hw
      cases hc : env.canCreate q with
      | true =>
        rw [(hok hc).2.1] at hw
        rcases List.mem_append.mp hw with h | h
        · exact Or.inl (by simpa using h)
        · right
          have : w = (q, body) := by simpa using h
          rw [this]; exact hc
      | false =>
        rw [(hfail hc).2.1] at hw
        exact Or.inl (by simpa using hw)
    · intro st0 h0
      have h0' : (st.logged (.gotAttachment f)).sameEffects st0 :=
        sameEffects_trans (sameEffects_logged _ _) h0
      rcases saveFile_sameEffects cfg env fuel _ st0 body (pathJoin [dn, f]) h0' with
        ⟨hn, -⟩ | ⟨q', a', b', k1, k2, k3⟩
      · rw [hn] at hs; exact absurd hs (by simp)
      · rw [hs] at k1
        simp only [Option.some.injEq, Prod.mk.injEq] at k1
        obtain ⟨rfl, rfl⟩ := k1
        refine ⟨[(st0.files, q)], b', ?_, sameEffects_trans (sameEffects_logged _ _) k3⟩
        simp only [attachmentCalls, namedAttachments, List.map_cons, List.map_nil, saveFiles, k2]
    · intro nb hnb
      have : nb = (f, body) := by simpa [namedAttachments] using hnb
      subst this
      refine ⟨q, hcand, ?_⟩
      cases hc : env.canCreate q with
      | true =>
        left
        refine ⟨rfl, ?_⟩
        simp only [logged_written]
        rw [(hok hc).2.1]; simp
      | false =>
        right
        refine ⟨rfl, ?_⟩
        simp only [logged_log]
        rw [(hfail hc).2.2]; simp
    · rintro ⟨b', h⟩; simp at h
    · intro w hw
      simp only [logged_written] at hw
      cases hc : env.canCreate q with
      | true =>
        rw [(hok hc).2.1] at hw
        rcases List.mem_append.mp hw with h | h
        · exact Or.inl (by simpa using h)
        · right
          have hwq : w = (q, body) := by simpa using h
          exact ⟨(f, body), by simp [namedAttachments], by rw [hwq]; exact hcand,
            by rw [hwq]⟩
      | false =>
        rw [(hfail hc).2.1] at hw
        exact Or.inl (by simpa using hw)
  · simp only [handlePart, Option.some.injEq, Prod.mk.injEq] at h
    obtain ⟨rfl, rfl⟩ := h
    obtain ⟨a1, a2, a3, a4, a5, a6, a7, a8, a9⟩ := partsEffect_nil cfg env fuel dn names st
    refine ⟨by simp [namedAttachments], a2, a3, a4, a5, ?_, ?_, ?_, fun _ h => Or.inl h⟩
    · intro st0 h0; exact ⟨[], st0, rfl, h0⟩
    · intro nb hnb; simp [namedAttachments] at hnb
    · rintro ⟨b', h⟩; simp at h

theorem partsRun_cons_some (cfg : Config) (env : Env) (fuel : Nat) (dn : GoString) (p : Part)
    (rest : List Part) (names : List GoString) (st : State) (r : List GoString × State)
    (h : partsRun cfg env fuel dn (p :: rest) names st = some r) :
    ∃ n1 s1, handlePart cfg env fuel dn p names st = some (n1, s1) ∧
      partsRun cfg env fuel dn rest n1 s1 = some r := by
  simp only [partsRun] at h
  cases hh : handlePart cfg env fuel dn p names st with
  | none => simp [hh] at h
  | some x =>
    obtain ⟨n1, s1⟩ := x
    simp only [hh] at h
    exact ⟨n1, s1, rfl, h⟩

/-- Parts handled one after the other, when they all return, have the effects of the
parts. -/
theorem partsRun_spec (cfg : Config) (env : Env) (fuel : Nat) (dn : GoString) :
    ∀ (ps : List Part) (names : List GoString) (st : State) (n1 : List GoString) (s1 : State),
      partsRun cfg env fuel dn ps names st = some (n1, s1) →
        partsEffect cfg env fuel dn ps names st n1 s1 := by
  intro ps
  induction ps with
  | nil =>
    intro names st n1 s1 h
    simp only [partsRun, Option.some.injEq, Prod.mk.injEq] at h
    obtain ⟨rfl, rfl⟩ := h
    exact partsEffect_nil cfg env fuel dn names st
  | cons p rest ih =>
    intro names st n2 s2 h
    obtain ⟨n1, s1, h1, h2⟩ := partsRun_cons_some cfg env fuel dn p rest names st _ h
    have e1 := handlePart_spec cfg env fuel dn p names st n1 s1 h1
    have e2 := ih n1 s1 n2 s2 h2
    have := partsEffect_append cfg env fuel dn [p] rest names n1 n2 st s1 s2 e1 e2
    simpa using this

theorem partsRun_append (cfg : Config) (env : Env) (fuel : Nat) (dn : GoString) :
    ∀ (ps qs : List Part) (names : List GoString) (st : State),
      partsRun cfg env fuel dn (ps ++ qs) names st =
        match partsRun cfg env fuel dn ps names st with
        | none => none
        | some (n1, s1) => partsRun cfg env fuel dn qs n1 s1 := by
  intro ps
  induction ps with
  | nil => intro qs names st; rfl
  | cons p rest ih =>
    intro qs names st
    simp only [List.cons_append, partsRun]
    cases hh : handlePart cfg env fuel dn p names st with
    | none => rfl
    | some x =>
      obtain ⟨n1, s1⟩ := x
      exact ih qs n1 s1

/-- The part loop on a stream without parse error handles the parts one after the other
and then reaches `io.EOF`. -/
theorem partsLoop_parts (cfg : Config) (env : Env) (fuel : Nat) (dn subject : GoString) :
    ∀ (ps : List Part) (names : List GoString) (st : State),
      partsLoop cfg env fuel dn subject (ps.map .part) names st =
        (partsRun cfg env fuel dn ps names st).map
          (fun r => LoopResult.finished r.1 (r.2.logged (.msgEnd subject))) := by
  intro ps
  induction ps with
  | nil => intro names st; rfl
  | cons p rest ih =>
    intro names st
    simp only [List.map_cons, partsLoop, partsRun]
    cases hh : handlePart cfg env fuel dn p names st with
    | none => rfl
    | some x =>
      obtain ⟨n1, s1⟩ := x
      exact ih n1 s1

/-- The part loop, when it returns, has sent no reply and kept the log. -/
theorem partsLoop_replies (cfg : Config) (env : Env) (fuel : Nat) (dn subject : GoString) :
    ∀ (parts : List NextPart) (names : List GoString) (st : State) (r : LoopResult),
      partsLoop cfg env fuel dn subject parts names st = some r →
        r.state.replies = st.replies ∧ ∀ e ∈ st.log, e ∈ r.state.log := by
  intro parts
  induction parts with
  | nil =>
    intro names st r h
    simp only [partsLoop, Option.some.injEq] at h
    subst h
    exact ⟨rfl, fun e he => by simp [LoopResult.state, he]⟩
  | cons np rest ih =>
    intro names st r h
    cases np with
    | error =>
      simp only [partsLoop, Option.some.injEq] at h
      subst h
      exact ⟨rfl, fun e he => by simp [LoopResult.state, he]⟩
    | part p =>
      simp only [partsLoop] at h
      cases hh : handlePart cfg env fuel dn p names st with
      | none => simp [hh] at h
      | some x =>
        obtain ⟨n1, s1⟩ := x
        simp only [hh] at h
        have e1 := handlePart_spec cfg env fuel dn p names st n1 s1 hh
        obtain ⟨hrep, hlog⟩ := ih n1 s1 r h
        exact ⟨by rw [hrep, e1.2.1], fun e he => hlog e (e1.2.2.1 e he)⟩

theorem handlePart_sameEffects (cfg : Config) (env : Env) (fuel : Nat) (dn : GoString)
    (p : Part) (names : List GoString) (a b : State) (hab : a.sameEffects b) :
    (handlePart cfg env fuel dn p names a = none ∧
      handlePart cfg env fuel dn p names b = none) ∨
    ∃ n a' b', handlePart cfg env fuel dn p names a = some (n, a') ∧
      handlePart cfg env fuel dn p names b = some (n, b') ∧ a'.sameEffects b' := by
  rcases p with t | ⟨_ | f, body⟩ | _
  · exact Or.inr ⟨names, _, _, rfl, rfl, sameEffects_logged_both hab _ _⟩
  · exact Or.inr ⟨names, _, _, rfl, rfl, sameEffects_logged_both hab _ _⟩
  · have hab' : (a.logged (.gotAttachment f)).sameEffects (b.logged (.gotAttachment f)) :=
      sameEffects_logged_both hab _ _
    rcases saveFile_sameEffects cfg env fuel _ _ body (pathJoin [dn, f]) hab' with
      ⟨h1, h2⟩ | ⟨q, a', b', h1, h2, h3⟩
    · left
      exact ⟨by simp only [handlePart, h1], by simp only [handlePart, h2]⟩
    · right
      exact ⟨names ++ [f], a'.logged (.savedTo q), b'.logged (.savedTo q),
        by simp only [handlePart, h1], by simp only [handlePart, h2],
        sameEffects_logged_both h3 _ _⟩
  · exact Or.inr ⟨names, a, b, rfl, rfl, hab⟩

/-- The part loop does not read the log: from states with the same files and replies it
either runs forever in both cases or ends the same way, with the same names, in states
with the same files and replies. -/
theorem partsLoop_sameEffects (cfg : Config) (env : Env) (fuel : Nat) (dn subject : GoString) :
    ∀ (parts : List NextPart) (names : List GoString) (a b : State), a.sameEffects b →
      (partsLoop cfg env fuel dn subject parts names a = none ∧
        partsLoop cfg env fuel dn subject parts names b = none) ∨
      ∃ ra rb, partsLoop cfg env fuel dn subject parts names a = some ra ∧
        partsLoop cfg env fuel dn subject parts names b = some rb ∧ ra.sameEffects rb := by
  intro parts
  induction parts with
  | nil =>
    intro names a b hab
    exact Or.inr ⟨_, _, rfl, rfl, ⟨rfl, sameEffects_logged_both hab _ _⟩⟩
  | cons np rest ih =>
    intro names a b hab
    cases np with
    | error => exact Or.inr ⟨_, _, rfl, rfl, sameEffects_logged_both hab _ _⟩
    | part p =>
      rcases handlePart_sameEffects cfg env fuel dn p names a b hab with
        ⟨h1, h2⟩ | ⟨n, a', b', h1, h2, h3⟩
      · left
        exact ⟨by simp only [partsLoop, h1], by simp only [partsLoop, h2]⟩
      · rcases ih n a' b' h3 with ⟨k1, k2⟩ | ⟨ra, rb, k1, k2, k3⟩
        · left
          exact ⟨by simp only [partsLoop, h1, k1], by simp only [partsLoop, h2, k2]⟩
        · right
          exact ⟨ra, rb, by simp only [partsLoop, h1, k1], by simp only [partsLoop, h2, k2], k3⟩

theorem handlePart_returns (cfg : Config) (env : Env) (fuel : Nat) (dn : GoString) (p : Part)
    (names : List GoString) (st : State) (hstat : ∀ q, env.statError q = false)
    (hfuel : st.files.length < fuel) :
    ∃ n1 s1, handlePart cfg env fuel dn p names st = some (n1, s1) ∧
      s1.files.length ≤ st.files.length + 1 := by
  rcases p with t | ⟨_ | f, body⟩ | _
  · exact ⟨_, _, rfl, by simp⟩
  · exact ⟨_, _, rfl, by simp⟩
  · obtain ⟨q, st1, hs, hlen⟩ := saveFile_returns cfg env fuel (st.logged (.gotAttachment f))
      body (pathJoin [dn, f]) hstat (by simpa using hfuel)
    exact ⟨names ++ [f], st1.logged (.savedTo q), by simp only [handlePart, hs],
      by simpa using hlen⟩
  · exact ⟨_, _, rfl, by simp⟩

/-- Without `os.Stat` errors other than "does not exist", the part loop returns once the
fuel exceeds the number of existing paths plus the number of parts. -/
theorem partsLoop_returns (cfg : Config) (env : Env) (fuel : Nat) (dn subject : GoString)
    (hstat : ∀ q, env.statError q = false) :
    ∀ (parts : List NextPart) (names : List GoString) (st : State),
      st.files.length + parts.length < fuel →
        ∃ r, partsLoop cfg env fuel dn subject parts names st = some r := by
  intro parts
  induction parts with
  | nil => intro names st _; exact ⟨_, rfl⟩
  | cons np rest ih =>
    intro names st hfuel
    simp only [List.length_cons] at hfuel
    cases np with
    | error => exact ⟨_, rfl⟩
    | part p =>
      obtain ⟨n1, s1, h1, hlen⟩ := handlePart_returns cfg env fuel dn p names st hstat
        (by omega)
      obtain ⟨r, hr⟩ := ih n1 s1 (by omega)
      exact ⟨r, by simp only [partsLoop, h1, hr]⟩

theorem handlePart_mono (cfg : Config) (env : Env) (fuel fuel' : Nat) (dn : GoString)
    (p : Part) (names : List GoString) (st : State) (r : List GoString × State)
    (h : handlePart cfg env fuel dn p names st = some r) (hle : fuel ≤ fuel') :
    handlePart cfg env fuel' dn p names st = some r := by
  rcases p with t | ⟨_ | f, body⟩ | _
  · exact h
  · exact h
  · obtain ⟨n1, s1⟩ := r
    obtain ⟨q, st1, hs, rfl, rfl⟩ := handlePart_named cfg env fuel dn f body names st n1 s1 h
    simp only [handlePart, saveFile_mono cfg env fuel fuel' _ body _ _ hs hle]
  · exact h

theorem partsLoop_mono (cfg : Config) (env : Env) (fuel fuel' : Nat) (dn subject : GoString)
    (hle : fuel ≤ fuel') :
    ∀ (parts : List NextPart) (names : List GoString) (st : State) (r : LoopResult),
      partsLoop cfg env fuel dn subject parts names st = some r →
        partsLoop cfg env fuel' dn subject parts names st = some r := by
  intro parts
  induction parts with
  | nil => intro names st r h; exact h
  | cons np rest ih =>
    intro names st r h
    cases np with
    | error => exact h
    | part p =>
      simp only [partsLoop] at h ⊢
      cases hh : handlePart cfg env fuel dn p names st with
      | none => simp [hh] at h
      | some x =>
        obtain ⟨n1, s1⟩ := x
        simp only [hh] at h
        rw [handlePart_mono cfg env fuel fuel' dn p names st _ hh hle]
        exact ih n1 s1 r h

theorem partsRun_sameEffects (cfg : Config) (env : Env) (fuel : Nat) (dn : GoString) :
    ∀ (ps : List Part) (names : List GoString) (a b : State), a.sameEffects b →
      (partsRun cfg env fuel dn ps names a = none ∧
        partsRun cfg env fuel dn ps names b = none) ∨
      ∃ n a' b', partsRun cfg env fuel dn ps names a = some (n, a') ∧
        partsRun cfg env fuel dn ps names b = some (n, b') ∧ a'.sameEffects b' := by
  intro ps
  induction ps with
  | nil => intro names a b hab; exact Or.inr ⟨names, a, b, rfl, rfl, hab⟩
  | cons p rest ih =>
    intro names a b hab
    rcases handlePart_sameEffects cfg env fuel dn p names a b hab with
      ⟨h1, h2⟩ | ⟨n, a', b', h1, h2, h3⟩
    · left
      exact ⟨by simp only [partsRun, h1], by simp only [partsRun, h2]⟩
    · rcases ih n a' b' h3 with ⟨k1, k2⟩ | ⟨n', a2, b2, k1, k2, k3⟩
      · left
        exact ⟨by simp only [partsRun, h1, k1], by simp only [partsRun, h2, k2]⟩
      · right
        exact ⟨n', a2, b2, by simp only [partsRun, h1, k1], by simp only [partsRun, h2, k2], k3⟩

/-- A part whose `Filename()` fails changes nothing but the log: the parts are handled
as without it. -/
theorem partsRun_skip_nameless (cfg : Config) (env : Env) (fuel : Nat) (dn body : GoString)
    (pre post : List Part) (names : List GoString) (st : State) :
    (partsRun cfg env fuel dn (pre ++ Part.attachment none body :: post) names st = none ∧
      partsRun cfg env fuel dn (pre ++ post) names st = none) ∨
    ∃ n a' b',
      partsRun cfg env fuel dn (pre ++ Part.attachment none body :: post) names st =
        some (n, a') ∧
      partsRun cfg env fuel dn (pre ++ post) names st = some (n, b') ∧ a'.sameEffects b' := by
  rw [partsRun_append, partsRun_append]
  cases hpre : partsRun cfg env fuel dn pre names st with
  | none => exact Or.inl ⟨rfl, rfl⟩
  | some x =>
    obtain ⟨n1, s1⟩ := x
    simp only [partsRun, handlePart]
    exact partsRun_sameEffects cfg env fuel dn post n1 _ _ (sameEffects_logged _ _)

/-! ## Extraction pipeline: the whole of `processMail` -/

theorem processMail_unfold (cfg : Config) (env : Env) (fuel : Nat) (msg : Message)
    (st : State) (m : Mail) (s : GoString) (hbody : msg.body = .reader m)
    (hsubj : m.subject = some s) :
    processMail cfg env fuel msg st =
      (partsLoop cfg env fuel (routeLoop s cfg.Keys) s m.parts []
        (beforeLoop m s st)).map (afterLoop m s) := by
  simp only [processMail, hbody, hsubj]

theorem beforeLoop_sameEffects (m : Mail) (s : GoString) (st : State) :
    (beforeLoop m s st).sameEffects st := by
  unfold beforeLoop
  cases m.date <;> exact ⟨rfl, rfl, rfl⟩

theorem beforeLoop_files (m : Mail) (s : GoString) (st : State) :
    (beforeLoop m s st).files = st.files := (beforeLoop_sameEffects m s st).1

/-- The end of `processMail` after a part loop that reached `io.EOF`: files and created
files are kept, the log is kept and holds the end-of-message line, and a reply is
appended exactly when a first sender exists. -/
theorem finish_effects (m : Mail) (s1 : State) (s : GoString) (n : List GoString) :
    (afterLoop m s (.finished n (s1.logged (.msgEnd s)))).files = s1.files ∧
    (afterLoop m s (.finished n (s1.logged (.msgEnd s)))).written = s1.written ∧
    (∀ e ∈ s1.log, e ∈ (afterLoop m s (.finished n (s1.logged (.msgEnd s)))).log) ∧
    LogEvent.msgEnd s ∈ (afterLoop m s (.finished n (s1.logged (.msgEnd s)))).log ∧
    (afterLoop m s (.finished n (s1.logged (.msgEnd s)))).replies =
      s1.replies ++ (match m.fromList with
        | some (a :: _) => [⟨a, s, n, m.date.getD 0⟩]
        | _ => []) := by
  rcases hf : m.fromList with _ | ⟨_ | ⟨a, others⟩⟩
  · simp only [afterLoop, hf, Option.isSome_none, Bool.false_eq_true, if_false]
    exact ⟨rfl, rfl, fun e he => by simp [he], by simp, by simp⟩
  · simp only [afterLoop, hf, Option.isSome_some, if_true, Option.getD_some]
    exact ⟨rfl, rfl, fun e he => by simp [recovered, he], by simp [recovered],
      by simp [recovered]⟩
  · simp only [afterLoop, hf, Option.isSome_some, if_true, Option.getD_some]
    exact ⟨rfl, rfl, fun e he => by simp [sendReply, he], by simp [sendReply],
      by simp [sendReply]⟩

/-- Without resolvable sender the end of `processMail` sends no reply. -/
theorem afterLoop_no_sender (m : Mail) (s : GoString) (r : LoopResult)
    (hf : m.fromList = none ∨ m.fromList = some []) :
    (afterLoop m s r).replies = r.state.replies := by
  cases r with
  | panicked st3 => rfl
  | finished n st3 =>
    rcases hf with hf | hf
    · simp only [afterLoop, hf, Option.isSome_none, Bool.false_eq_true, if_false,
        LoopResult.state]
    · simp only [afterLoop, hf, Option.isSome_some, if_true, Option.getD_some,
        LoopResult.state]
      rfl

/-- The end of `processMail` reads the sender list and the date only, and keeps the
log. -/
theorem afterLoop_sameEffects (m1 m2 : Mail) (s : GoString) (ra rb : LoopResult)
    (hf : m1.fromList = m2.fromList) (hd : m1.date.getD 0 = m2.date.getD 0)
    (h : ra.sameEffects rb) :
    (afterLoop m1 s ra).sameEffects (afterLoop m2 s rb) ∧
      ∀ e ∈ ra.state.log, e ∈ (afterLoop m1 s ra).log := by
  cases ra with
  | panicked sa =>
    cases rb with
    | panicked sb =>
      exact ⟨sameEffects_logged_both h _ _, fun e he => by
        simp only [LoopResult.state] at he
        simp [afterLoop, recovered, he]⟩
    | finished n sb => exact absurd h (by simp [LoopResult.sameEffects])
  | finished n sa =>
    cases rb with
    | panicked sb => exact absurd h (by simp [LoopResult.sameEffects])
    | finished n' sb =>
      obtain ⟨rfl, hab⟩ : n = n' ∧ sa.sameEffects sb := h
      rcases hf1 : m1.fromList with _ | ⟨_ | ⟨a, others⟩⟩
      · have hf2 : m2.fromList = none := by rw [← hf, hf1]
        simp only [afterLoop, hf1, hf2, Option.isSome_none, Bool.false_eq_true, if_false,
          LoopResult.state]
        exact ⟨hab, fun e he => he⟩
      · have hf2 : m2.fromList = some [] := by rw [← hf, hf1]
        simp only [afterLoop, hf1, hf2, Option.isSome_some, if_true, Option.getD_some,
          LoopResult.state]
        exact ⟨sameEffects_logged_both hab _ _, fun e he => by simp [recovered, he]⟩
      · have hf2 : m2.fromList = some (a :: others) := by rw [← hf, hf1]
        simp only [afterLoop, hf1, hf2, Option.isSome_some, if_true, Option.getD_some,
          LoopResult.state, hd]
        exact ⟨⟨hab.1, hab.2.1, by simp only [sendReply, hab.2.2]⟩,
          fun e he => by simp [sendReply, he]⟩

/-- A message whose part stream has no parse error: when `processMail` returns, it has
handled the parts one after the other, with their effects, and left through the end of
the function. -/
theorem processMail_parts (cfg : Config) (env : Env) (fuel : Nat) (msg : Message)
    (st : State) (m : Mail) (s : GoString) (ps : List Part)
    (hbody : msg.body = .reader m) (hsubj : m.subject = some s)
    (hparts : m.parts = ps.map .part) (st' : State)
    (hret : processMail cfg env fuel msg st = some st') :
    ∃ n1 s1,
      partsRun cfg env fuel (routeLoop s cfg.Keys) ps [] (beforeLoop m s st) = some (n1, s1) ∧
      partsEffect cfg env fuel (routeLoop s cfg.Keys) ps [] (beforeLoop m s st) n1 s1 ∧
      st' = afterLoop m s (.finished n1 (s1.logged (.msgEnd s))) := by
  rw [processMail_unfold cfg env fuel msg st m s hbody hsubj, hparts, partsLoop_parts] at hret
  cases hr : partsRun cfg env fuel (routeLoop s cfg.Keys) ps [] (beforeLoop m s st) with
  | none => simp [hr] at hret
  | some x =>
    obtain ⟨n1, s1⟩ := x
    simp only [hr, Option.map_some', Option.some.injEq] at hret
    exact ⟨n1, s1, rfl, partsRun_spec cfg env fuel _ ps [] _ n1 s1 hr, hret.symm⟩

/-- Without `os.Stat` errors other than "does not exist", `processMail` returns once the
fuel exceeds the number of existing paths plus the number of parts. -/
theorem processMail_returns (cfg : Config) (env : Env) (fuel : Nat) (msg : Message)
    (st : State) (hstat : ∀ q, env.statError q = false)
    (hfuel : st.files.length + partCount msg < fuel) :
    ∃ st', processMail cfg env fuel msg st = some st' := by
  cases hbody : msg.body with
  | missing => exact ⟨recovered st, by simp only [processMail, hbody]⟩
  | unreadable => exact ⟨recovered st, by simp only [processMail, hbody]⟩
  | reader m =>
    cases hsubj : m.subject with
    | none => exact ⟨recovered st, by simp only [processMail, hbody, hsubj]⟩
    | some s =>
      simp only [partCount, hbody] at hfuel
      obtain ⟨r, hr⟩ := partsLoop_returns cfg env fuel (routeLoop s cfg.Keys) s hstat m.parts []
        (beforeLoop m s st) (by rw [beforeLoop_files]; exact hfuel)
      exact ⟨afterLoop m s r, by
        rw [processMail_unfold cfg env fuel msg st m s hbody hsubj, hr]; rfl⟩

/-- More fuel does not change what `processMail` returns. -/
theorem processMail_mono (cfg : Config) (env : Env) (fuel fuel' : Nat) (msg : Message)
    (st st' : State) (h : processMail cfg env fuel msg st = some st') (hle : fuel ≤ fuel') :
    processMail cfg env fuel' msg st = some st' := by
  cases hbody : msg.body with
  | missing => simpa only [processMail, hbody] using h
  | unreadable => simpa only [processMail, hbody] using h
  | reader m =>
    cases hsubj : m.subject with
    | none => simpa only [processMail, hbody, hsubj] using h
    | some s =>
      rw [processMail_unfold cfg env fuel msg st m s hbody hsubj] at h
      rw [processMail_unfold cfg env fuel' msg st m s hbody hsubj]
      cases hr : partsLoop cfg env fuel (routeLoop s cfg.Keys) s m.parts []
          (beforeLoop m s st) with
      | none => simp [hr] at h
      | some r =>
        rw [partsLoop_mono cfg env fuel fuel' _ s hle m.parts [] _ r hr]
        rw [hr] at h
        exact h

theorem namedAttachments_eq_nil (ps : List Part)
    (h : ∀ p ∈ ps, ∀ fn b, p ≠ Part.attachment fn b) : namedAttachments ps = [] := by
  induction ps with
  | nil => rfl
  | cons p rest ih =>
    have hrest := ih (fun q hq => h q (List.mem_cons_of_mem _ hq))
    rcases p with t | ⟨_ | f, body⟩ | _
    · simpa [namedAttachments] using hrest
    · simpa [namedAttachments] using hrest
    · exact absurd rfl (h _ (List.mem_cons_self _ _) (some f) body)
    · simpa [namedAttachments] using hrest

theorem length_map_part (ps : List Part) : (ps.map NextPart.part).length = ps.length :=
  List.length_map _ _

/-! ## Claims on the extraction pipeline -/

/-- C5 as stated fails: when `os.Create` fails, the name of the attachment is handed to
the reply although no file was persisted for it. -/
theorem processMail_names_not_persisted_counterexample :
    (processMail exampleConfig ⟨fun _ => false, fun _ => false⟩ 5
        (exampleMessage (some "INVOICE 7".toList) (some ["a@b.c".toList])
          [.part (.attachment (some "r.pdf".toList) "xyz".toList)])
        exampleState).map (fun st => (st.written, st.replies)) =
      some ([], [⟨"a@b.c".toList, "INVOICE 7".toList, ["r.pdf".toList], 1⟩]) := by
  decide

/-- C5, amended. Attachment names: for a message whose part stream is consumed to
end-of-stream without parse error, the `attachmentNames` handed to `sendReply` are, in
document order, the claimed filenames of exactly the attachment parts with a well-formed
filename, that is those handed to `saveFile` (the names before `path.Join` and collision
resolution, not the paths returned); the files of the message are those of the sequential
`saveFile` calls for these parts, and when every creation succeeds exactly these parts are
persisted, one file each.  Without attachment parts the list is empty and no file is
written.  The message is consumed to end-of-stream whenever `os.Stat` reports no error
other than "does not exist". -/
theorem processMail_attachmentNames (cfg : Config) (env : Env) (fuel : Nat) (msg : Message)
    (st : State) (m : Mail) (s a : GoString) (others : List GoString) (ps : List Part)
    (hbody : msg.body = .reader m) (hsubj : m.subject = some s)
    (hfrom : m.fromList = some (a :: others)) (hparts : m.parts = ps.map .part) :
    (∀ st', processMail cfg env fuel msg st = some st' →
      ∃ tr stS,
        st'.replies =
          st.replies ++ [⟨a, s, (namedAttachments ps).map Prod.fst, m.date.getD 0⟩] ∧
        saveFiles cfg env fuel (attachmentCalls (routeLoop s cfg.Keys) ps) st =
          some (tr, stS) ∧
        st'.files = stS.files ∧ st'.written = stS.written ∧
        ((∀ p, env.canCreate p = true) →
          st'.written =
            st.written ++ (tr.map Prod.snd).zip ((namedAttachments ps).map Prod.snd)) ∧
        ((∀ p ∈ ps, ∀ fn b, p ≠ Part.attachment fn b) →
          namedAttachments ps = [] ∧ st'.written = st.written ∧ st'.files = st.files)) ∧
    ((∀ p, env.statError p = false) → st.files.length + ps.length < fuel →
      ∃ st', processMail cfg env fuel msg st = some st') := by
  constructor
  · intro st' hret
    obtain ⟨n1, s1, -, ⟨e1, e2, -, -, -, e6, -⟩, rfl⟩ :=
      processMail_parts cfg env fuel msg st m s ps hbody hsubj hparts st' hret
    obtain ⟨tr, stS, hsave, hsame⟩ := e6 st (beforeLoop_sameEffects m s st)
    obtain ⟨f1, f2, -, -, f5⟩ := finish_effects m s1 s n1
    have hr0 : s1.replies = st.replies := e2.trans (beforeLoop_sameEffects m s st).2.2
    refine ⟨tr, stS, ?_, hsave, f1.trans hsame.1, f2.trans hsame.2.1, ?_, ?_⟩
    · rw [f5, hfrom, hr0, e1]
      simp
    · intro hcreate
      obtain ⟨-, -, -, -, -, k7⟩ := saveFiles_trace cfg env fuel hcreate _ st tr stS hsave
      have hmap : (attachmentCalls (routeLoop s cfg.Keys) ps).map Prod.snd =
          (namedAttachments ps).map Prod.snd := by
        simp only [attachmentCalls, List.map_map]
        rfl
      rw [f2, hsame.2.1, k7, hmap]
    · intro hno
      have hnil := namedAttachments_eq_nil ps hno
      have hcalls : attachmentCalls (routeLoop s cfg.Keys) ps = [] := by
        simp [attachmentCalls, hnil]
      rw [hcalls] at hsave
      simp only [saveFiles, Option.some.injEq, Prod.mk.injEq] at hsave
      obtain ⟨-, rfl⟩ := hsave
      exact ⟨hnil, f2.trans hsame.2.1, f1.trans hsame.1⟩
  · intro hstat hfuel
    apply processMail_returns cfg env fuel msg st hstat
    simp only [partCount, hbody, hparts, List.length_map]
    exact hfuel

/-- C5, amended, at the message of the end-to-end scenario: subject
`INVOICE monthly report`, one attachment `report.pdf`; the reply lists `report.pdf` and
the file is `data/INVOICE/report.pdf`. -/
theorem processMail_attachmentNames_witness :
    (processMail exampleConfig exampleEnv 10
        (exampleMessage (some "INVOICE monthly report".toList) (some ["a@b.c".toList])
          [.part (.inline "hi".toList),
            .part (.attachment (some "report.pdf".toList) "xyz".toList)])
        exampleState).map (fun st => (st.written, st.replies)) =
      some ([("data/INVOICE/report.pdf".toList, "xyz".toList)],
        [⟨"a@b.c".toList, "INVOICE monthly report".toList, ["report.pdf".toList], 1⟩]) ∧
    ∃ st' tr stS,
      processMail exampleConfig exampleEnv 10
        (exampleMessage (some "INVOICE monthly report".toList) (some ["a@b.c".toList])
          [.part (.inline "hi".toList),
            .part (.attachment (some "report.pdf".toList) "xyz".toList)])
        exampleState = some st' ∧
      st'.replies = exampleState.replies ++
        [⟨"a@b.c".toList, "INVOICE monthly report".toList,
          (namedAttachments [.inline "hi".toList,
            .attachment (some "report.pdf".toList) "xyz".toList]).map Prod.fst,
          (some 1).getD 0⟩] ∧
      saveFiles exampleConfig exampleEnv 10
        (attachmentCalls (routeLoop "INVOICE monthly report".toList exampleConfig.Keys)
          [.inline "hi".toList, .attachment (some "report.pdf".toList) "xyz".toList])
        exampleState = some (tr, stS) ∧
      st'.files = stS.files ∧ st'.written = stS.written := by
  refine ⟨by decide, ?_⟩
  have h := processMail_attachmentNames exampleConfig exampleEnv 10
    (exampleMessage (some "INVOICE monthly report".toList) (some ["a@b.c".toList])
      [.part (.inline "hi".toList),
        .part (.attachment (some "report.pdf".toList) "xyz".toList)])
    exampleState _ "INVOICE monthly report".toList "a@b.c".toList []
    [.inline "hi".toList, .attachment (some "report.pdf".toList) "xyz".toList]
    rfl rfl rfl rfl
  obtain ⟨st', hret⟩ := h.2 (fun _ => rfl) (by decide)
  obtain ⟨tr, stS, h1, h2, h3, h4, -⟩ := h.1 st' hret
  exact ⟨st', tr, stS, hret, h1, h2, h3, h4⟩

/-- C6 as stated fails: for an attachment whose header carries no filename the library
answers the empty name without error; `processMail` records the empty name and writes a
file for the part, at `data/RECEIPT-0`. -/
theorem processMail_absent_filename_counterexample :
    (processMail exampleConfig exampleEnv 10
        (exampleMessage (some "RECEIPT 1".toList) (some ["a@b.c".toList])
          [.part (.attachment (some []) "2".toList)])
        exampleState).map (fun st => (st.written, st.replies)) =
      some ([("data/RECEIPT-0".toList, "2".toList)],
        [⟨"a@b.c".toList, "RECEIPT 1".toList, [[]], 1⟩]) := by
  decide

/-- C6, amended. Missing filename tolerance: when `data.Filename()` returns an error for
an attachment part of a stream without parse error, `processMail` logs the failure,
records no name and writes no file for that part, and goes on exactly as for the same
message without that part: it returns for the one when it returns for the other, with
the same files, created files and replies; when it returns it has reached end-of-stream,
and every other named attachment is reported in the reply and handed to `saveFile`.  It
returns whenever `os.Stat` reports no error other than "does not exist". -/
theorem processMail_nameless_attachment (cfg : Config) (env : Env) (fuel : Nat)
    (msg : Message) (st : State) (m : Mail) (s body : GoString) (pre post : List Part)
    (hbody : msg.body = .reader m) (hsubj : m.subject = some s)
    (hparts : m.parts = (pre ++ Part.attachment none body :: post).map .part) :
    (processMail cfg env fuel msg st = none ↔
      processMail cfg env fuel
        ⟨msg.SeqNum, msg.Envelope,
          .reader ⟨m.subject, m.date, m.fromList, (pre ++ post).map .part⟩⟩ st = none) ∧
    (∀ st1, processMail cfg env fuel msg st = some st1 →
      ∃ st2, processMail cfg env fuel
          ⟨msg.SeqNum, msg.Envelope,
            .reader ⟨m.subject, m.date, m.fromList, (pre ++ post).map .part⟩⟩ st = some st2 ∧
        st1.sameEffects st2 ∧
        LogEvent.attachmentNameError ∈ st1.log ∧ LogEvent.msgEnd s ∈ st1.log ∧
        (∀ a others, m.fromList = some (a :: others) →
          st1.replies = st.replies ++
            [⟨a, s, (namedAttachments (pre ++ post)).map Prod.fst, m.date.getD 0⟩]) ∧
        (∀ nb ∈ namedAttachments (pre ++ post),
          ∃ q, isCandidate cfg (pathJoin [routeLoop s cfg.Keys, nb.1]) q ∧
            ((env.canCreate q = true ∧ (q, nb.2) ∈ st1.written) ∨
              (env.canCreate q = false ∧ LogEvent.createError q ∈ st1.log)))) ∧
    ((∀ p, env.statError p = false) →
      st.files.length + (pre ++ Part.attachment none body :: post).length < fuel →
      ∃ st1, processMail cfg env fuel msg st = some st1) := by
  have hnamed : namedAttachments (pre ++ Part.attachment none body :: post) =
      namedAttachments (pre ++ post) := by
    rw [namedAttachments_append, namedAttachments_append]
    rfl
  have hu1 := processMail_unfold cfg env fuel msg st m s hbody hsubj
  have hu2 := processMail_unfold cfg env fuel
    ⟨msg.SeqNum, msg.Envelope, .reader ⟨m.subject, m.date, m.fromList, (pre ++ post).map .part⟩⟩
    st ⟨m.subject, m.date, m.fromList, (pre ++ post).map .part⟩ s rfl hsubj
  rw [hparts, partsLoop_parts] at hu1
  simp only [partsLoop_parts] at hu2
  have hb : beforeLoop ⟨m.subject, m.date, m.fromList, (pre ++ post).map .part⟩ s st =
      beforeLoop m s st := rfl
  rw [hb] at hu2
  refine ⟨?_, ?_, ?_⟩
  · rcases partsRun_skip_nameless cfg env fuel (routeLoop s cfg.Keys) body pre post []
        (beforeLoop m s st) with ⟨h1, h2⟩ | ⟨n, a', b', h1, h2, -⟩
    · rw [hu1, hu2, h1, h2]; simp
    · rw [hu1, hu2, h1, h2]; simp
  · intro st1 hret
    rcases partsRun_skip_nameless cfg env fuel (routeLoop s cfg.Keys) body pre post []
        (beforeLoop m s st) with ⟨h1, -⟩ | ⟨n, a', b', h1, h2, h3⟩
    · rw [hu1, h1] at hret; simp at hret
    · rw [hu1, h1] at hret
      simp only [Option.map_some', Option.some.injEq] at hret
      subst hret
      obtain ⟨e1, e2, -, -, -, -, e7, e8, -⟩ :=
        partsRun_spec cfg env fuel _ _ [] _ n a' h1
      rw [hnamed] at e1 e7
      obtain ⟨f1, f2, f3, f4, f5⟩ := finish_effects m a' s n
      have hstart : a'.replies = st.replies :=
        e2.trans (beforeLoop_sameEffects m s st).2.2
      refine ⟨_, by rw [hu2, h2]; rfl, ?_, f3 _ (e8 ⟨body, by simp⟩), f4, ?_, ?_⟩
      · exact (afterLoop_sameEffects m
          ⟨m.subject, m.date, m.fromList, (pre ++ post).map .part⟩ s
          (.finished n (a'.logged (.msgEnd s))) (.finished n (b'.logged (.msgEnd s)))
          rfl rfl ⟨rfl, sameEffects_logged_both h3 _ _⟩).1
      · intro a others hfrom
        rw [f5, hfrom, hstart, e1]
        simp
      · intro nb hnb
        obtain ⟨q, hq, hw | hl⟩ := e7 nb hnb
        · exact ⟨q, hq, Or.inl ⟨hw.1, by rw [f2]; exact hw.2⟩⟩
        · exact ⟨q, hq, Or.inr ⟨hl.1, f3 _ hl.2⟩⟩
  · intro hstat hfuel
    apply processMail_returns cfg env fuel msg st hstat
    simp only [partCount, hbody, hparts, List.length_map]
    exact hfuel

/-- C6, amended, at a message with a nameless attachment between two named ones: both
named attachments are saved and reported, nothing is saved for the nameless one. -/
theorem processMail_nameless_attachment_witness :
    (processMail exampleConfig exampleEnv 10
        (exampleMessage (some "RECEIPT 1".toList) (some ["a@b.c".toList])
          [.part (.attachment (some "a.txt".toList) "1".toList),
            .part (.attachment none "2".toList),
            .part (.attachment (some "b.txt".toList) "3".toList)])
        exampleState).map (fun st => (st.written, st.replies)) =
      some ([("data/RECEIPT/a.txt".toList, "1".toList),
          ("data/RECEIPT/b.txt".toList, "3".toList)],
        [⟨"a@b.c".toList, "RECEIPT 1".toList, ["a.txt".toList, "b.txt".toList], 1⟩]) ∧
    ∃ st1 st2,
      processMail exampleConfig exampleEnv 10
        (exampleMessage (some "RECEIPT 1".toList) (some ["a@b.c".toList])
          [.part (.attachment (some "a.txt".toList) "1".toList),
            .part (.attachment none "2".toList),
            .part (.attachment (some "b.txt".toList) "3".toList)])
        exampleState = some st1 ∧
      processMail exampleConfig exampleEnv 10
        (exampleMessage (some "RECEIPT 1".toList) (some ["a@b.c".toList])
          [.part (.attachment (some "a.txt".toList) "1".toList),
            .part (.attachment (some "b.txt".toList) "3".toList)])
        exampleState = some st2 ∧
      st1.sameEffects st2 ∧ LogEvent.attachmentNameError ∈ st1.log := by
  refine ⟨by decide, ?_⟩
  have h := processMail_nameless_attachment exampleConfig exampleEnv 10
    (exampleMessage (some "RECEIPT 1".toList) (some ["a@b.c".toList])
      [.part (.attachment (some "a.txt".toList) "1".toList),
        .part (.attachment none "2".toList),
        .part (.attachment (some "b.txt".toList) "3".toList)])
    exampleState _ "RECEIPT 1".toList "2".toList
    [.attachment (some "a.txt".toList) "1".toList]
    [.attachment (some "b.txt".toList) "3".toList] rfl rfl rfl
  obtain ⟨st1, hret⟩ := h.2.2 (fun _ => rfl) (by decide)
  obtain ⟨st2, h2, h3, h4, -⟩ := h.2.1 st1 hret
  exact ⟨st1, st2, hret, h2, h3, h4⟩

theorem partsLoop_append_parts (cfg : Config) (env : Env) (fuel : Nat) (dn subject : GoString)
    (rest : List NextPart) :
    ∀ (ps : List Part) (names : List GoString) (st : State),
      partsLoop cfg env fuel dn subject (ps.map .part ++ rest) names st =
        match partsRun cfg env fuel dn ps names st with
        | none => none
        | some (n1, s1) => partsLoop cfg env fuel dn subject rest n1 s1 := by
  intro ps
  induction ps with
  | nil => intro names st; rfl
  | cons p ps ih =>
    intro names st
    simp only [List.map_cons, List.cons_append, partsLoop, partsRun]
    cases hh : handlePart cfg env fuel dn p names st with
    | none => rfl
    | some x =>
      obtain ⟨n1, s1⟩ := x
      exact ih n1 s1

theorem afterLoop_log (m : Mail) (s : GoString) (r : LoopResult) :
    ∀ e ∈ r.state.log, e ∈ (afterLoop m s r).log := by
  intro e he
  cases r with
  | panicked st3 =>
    simp only [LoopResult.state] at he
    simp [afterLoop, recovered, he]
  | finished n st3 =>
    simp only [LoopResult.state] at he
    rcases hf : m.fromList with _ | ⟨_ | ⟨a, others⟩⟩
    · simpa [afterLoop, hf] using he
    · simp [afterLoop, hf, recovered, he]
    · simp [afterLoop, hf, sendReply, he]

/-- C7 as stated fails: the creation of `data/INVOICE/a.txt` fails, and `a.txt` is still
among the `attachmentNames` passed to the reply. -/
theorem processMail_create_failure_counterexample :
    (processMail exampleConfig failingEnv 10
        (exampleMessage (some "INVOICE 7".toList) (some ["a@b.c".toList])
          [.part (.attachment (some "a.txt".toList) "1".toList),
            .part (.attachment (some "b.txt".toList) "2".toList)])
        exampleState).map (fun st => (st.written, st.replies, st.log)) =
      some ([("data/INVOICE/b.txt".toList, "2".toList)],
        [⟨"a@b.c".toList, "INVOICE 7".toList, ["a.txt".toList, "b.txt".toList], 1⟩],
        [.gotMessage "INVOICE 7".toList, .gotAttachment "a.txt".toList,
          .createError "data/INVOICE/a.txt".toList, .savedTo "data/INVOICE/a.txt".toList,
          .gotAttachment "b.txt".toList, .savedTo "data/INVOICE/b.txt".toList,
          .msgEnd "INVOICE 7".toList]) := by
  decide

/-- C7, amended. Filesystem error handling: when the creation of the file of an
attachment fails in `saveFile`, that is `os.Create` fails at the path `q` that `saveFile`
resolves for it in the state reached after the parts before it, the failure is logged,
the name of the attachment is recorded all the same, and `processMail` goes on with the
remaining parts.  When it returns, the error for `q` is in the log, the message created
no file at `q`, end-of-stream was reached, the remaining named attachments were handed to
`saveFile`, and the reply, sent when a first sender exists, lists the name of the failed
attachment among the others.  It returns whenever `os.Stat` reports no error other than
"does not exist". -/
theorem processMail_create_failure (cfg : Config) (env : Env) (fuel : Nat) (msg : Message)
    (st : State) (m : Mail) (s f body : GoString) (pre post : List Part)
    (n1 : List GoString) (s1 : State) (q : GoString)
    (hbody : msg.body = .reader m) (hsubj : m.subject = some s)
    (hparts : m.parts = (pre ++ Part.attachment (some f) body :: post).map .part)
    (hpre : partsRun cfg env fuel (routeLoop s cfg.Keys) pre [] (beforeLoop m s st) =
      some (n1, s1))
    (hres : resolveName cfg env fuel s1.files (pathJoin [routeLoop s cfg.Keys, f]) = some q)
    (hfail : env.canCreate q = false) :
    processMail cfg env fuel msg st =
      (partsLoop cfg env fuel (routeLoop s cfg.Keys) s (post.map .part) (n1 ++ [f])
        (((s1.logged (.gotAttachment f)).logged (.createError q)).logged (.savedTo q))).map
        (afterLoop m s) ∧
    n1 = (namedAttachments pre).map Prod.fst ∧
    (∀ st', processMail cfg env fuel msg st = some st' →
      LogEvent.createError q ∈ st'.log ∧
      (∀ w ∈ st'.written, w.1 = q → w ∈ st.written) ∧
      LogEvent.msgEnd s ∈ st'.log ∧
      (∀ nb ∈ namedAttachments post,
        ∃ q', isCandidate cfg (pathJoin [routeLoop s cfg.Keys, nb.1]) q' ∧
          ((env.canCreate q' = true ∧ (q', nb.2) ∈ st'.written) ∨
            (env.canCreate q' = false ∧ LogEvent.createError q' ∈ st'.log))) ∧
      (∀ a others, m.fromList = some (a :: others) →
        st'.replies = st.replies ++
          [⟨a, s, n1 ++ f :: (namedAttachments post).map Prod.fst, m.date.getD 0⟩])) ∧
    ((∀ p, env.statError p = false) →
      st.files.length + (pre ++ Part.attachment (some f) body :: post).length < fuel →
      ∃ st', processMail cfg env fuel msg st = some st') := by
  have hn1 : n1 = (namedAttachments pre).map Prod.fst := by
    have := (partsRun_spec cfg env fuel _ pre [] _ n1 s1 hpre).1
    simpa using this
  have hsave : saveFile cfg env fuel (s1.logged (.gotAttachment f)) body
      (pathJoin [routeLoop s cfg.Keys, f]) =
      some (q, (s1.logged (.gotAttachment f)).logged (.createError q)) := by
    rw [saveFile_eq cfg env fuel _ body _ q (by simpa using hres),
      if_neg (by rw [hfail]; exact Bool.false_ne_true)]
  have hrun : processMail cfg env fuel msg st =
      (partsLoop cfg env fuel (routeLoop s cfg.Keys) s (post.map .part) (n1 ++ [f])
        (((s1.logged (.gotAttachment f)).logged (.createError q)).logged (.savedTo q))).map
        (afterLoop m s) := by
    rw [processMail_unfold cfg env fuel msg st m s hbody hsubj, hparts, List.map_append,
      partsLoop_append_parts, hpre]
    simp only [List.map_cons, partsLoop, handlePart, hsave]
  have hnamed : namedAttachments (pre ++ Part.attachment (some f) body :: post) =
      namedAttachments pre ++ (f, body) :: namedAttachments post := by
    rw [namedAttachments_append]
    rfl
  refine ⟨hrun, hn1, ?_, ?_⟩
  · intro st' hret
    obtain ⟨n, sE, -, ⟨a1, a2, -, -, a5, -, a7, -, -⟩, hst'⟩ :=
      processMail_parts cfg env fuel msg st m s _ hbody hsubj hparts st' hret
    rw [hnamed] at a1 a7
    obtain ⟨f1, f2, f3, f4, f5⟩ := finish_effects m sE s n
    have hstart : sE.replies = st.replies := a2.trans (beforeLoop_sameEffects m s st).2.2
    have hlogq : LogEvent.createError q ∈ st'.log := by
      rw [hrun] at hret
      cases hr : partsLoop cfg env fuel (routeLoop s cfg.Keys) s (post.map .part) (n1 ++ [f])
          (((s1.logged (.gotAttachment f)).logged (.createError q)).logged (.savedTo q)) with
      | none => rw [hr] at hret; simp at hret
      | some r =>
        rw [hr] at hret
        simp only [Option.map_some', Option.some.injEq] at hret
        rw [← hret]
        exact afterLoop_log m s r _ ((partsLoop_replies cfg env fuel _ s _ _ _ r hr).2 _
          (by simp))
    subst hst'
    refine ⟨hlogq, ?_, f4, ?_, ?_⟩
    · intro w hw hwq
      rw [f2] at hw
      rcases a5 w hw with h | h
      · rw [← (beforeLoop_sameEffects m s st).2.1]; exact h
      · rw [hwq, hfail] at h
        exact absurd h Bool.false_ne_true
    · intro nb hnb
      obtain ⟨q', hq', hw | hl⟩ := a7 nb (by simp [hnb])
      · exact ⟨q', hq', Or.inl ⟨hw.1, by rw [f2]; exact hw.2⟩⟩
      · exact ⟨q', hq', Or.inr ⟨hl.1, f3 _ hl.2⟩⟩
    · intro a others hfrom
      rw [f5, hfrom, hstart, a1, hn1]
      simp
  · intro hstat hfuel
    apply processMail_returns cfg env fuel msg st hstat
    simp only [partCount, hbody, hparts, List.length_map]
    exact hfuel

/-- C7, amended, in the operating system of the counterexample, for `a.txt` between
`x.txt` and `b.txt`: the error for `data/INVOICE/a.txt` is logged, the two other files
are created and the reply lists the three names. -/
theorem processMail_create_failure_witness :
    (processMail exampleConfig failingEnv 10
        (exampleMessage (some "INVOICE 7".toList) (some ["a@b.c".toList])
          [.part (.attachment (some "x.txt".toList) "0".toList),
            .part (.attachment (some "a.txt".toList) "1".toList),
            .part (.attachment (some "b.txt".toList) "2".toList)])
        exampleState).map (fun st => (st.written, st.replies)) =
      some ([("data/INVOICE/x.txt".toList, "0".toList),
          ("data/INVOICE/b.txt".toList, "2".toList)],
        [⟨"a@b.c".toList, "INVOICE 7".toList,
          ["x.txt".toList, "a.txt".toList, "b.txt".toList], 1⟩]) ∧
    failingEnv.canCreate "data/INVOICE/a.txt".toList = false ∧
    ∃ st', processMail exampleConfig failingEnv 10
        (exampleMessage (some "INVOICE 7".toList) (some ["a@b.c".toList])
          [.part (.attachment (some "x.txt".toList) "0".toList),
            .part (.attachment (some "a.txt".toList) "1".toList),
            .part (.attachment (some "b.txt".toList) "2".toList)])
        exampleState = some st' ∧
      LogEvent.createError "data/INVOICE/a.txt".toList ∈ st'.log ∧
      (∀ w ∈ st'.written, w.1 = "data/INVOICE/a.txt".toList → w ∈ exampleState.written) ∧
      st'.replies = exampleState.replies ++
        [⟨"a@b.c".toList, "INVOICE 7".toList,
          ["x.txt".toList] ++ "a.txt".toList ::
            (namedAttachments [.attachment (some "b.txt".toList) "2".toList]).map Prod.fst,
          (some 1).getD 0⟩] := by
  refine ⟨by decide, by decide, ?_⟩
  have h := processMail_create_failure exampleConfig failingEnv 10
    (exampleMessage (some "INVOICE 7".toList) (some ["a@b.c".toList])
      [.part (.attachment (some "x.txt".toList) "0".toList),
        .part (.attachment (some "a.txt".toList) "1".toList),
        .part (.attachment (some "b.txt".toList) "2".toList)])
    exampleState ⟨some "INVOICE 7".toList, some 1, some ["a@b.c".toList],
      [.part (.attachment (some "x.txt".toList) "0".toList),
        .part (.attachment (some "a.txt".toList) "1".toList),
        .part (.attachment (some "b.txt".toList) "2".toList)]⟩
    "INVOICE 7".toList "a.txt".toList "1".toList
    [.attachment (some "x.txt".toList) "0".toList]
    [.attachment (some "b.txt".toList) "2".toList]
    ["x.txt".toList]
    ⟨"data/INVOICE/x.txt".toList :: exampleState.files,
      [("data/INVOICE/x.txt".toList, "0".toList)],
      [.gotMessage "INVOICE 7".toList, .gotAttachment "x.txt".toList,
        .savedTo "data/INVOICE/x.txt".toList], []⟩
    "data/INVOICE/a.txt".toList rfl rfl rfl (by decide) (by decide) (by decide)
  obtain ⟨st', hret⟩ := h.2.2.2 (fun _ => rfl) (by decide)
  obtain ⟨k1, k2, -, -, k5⟩ := h.2.2.1 st' hret
  exact ⟨st', hret, k1, k2, k5 "a@b.c".toList [] rfl⟩

/-- C8 as stated fails: a message whose subject fails to parse is abandoned; its
attachment is not extracted and no reply is sent, while the same message with the
subject degraded to the empty string would have its attachment saved and answered. -/
theorem processMail_subject_failure_counterexample :
    processMail exampleConfig exampleEnv 10
        (exampleMessage none (some ["a@b.c".toList])
          [.part (.attachment (some "a.txt".toList) "1".toList)])
        exampleState =
      some ⟨exampleState.files, [], [.recovered], []⟩ ∧
    (processMail exampleConfig exampleEnv 10
        (exampleMessage (some []) (some ["a@b.c".toList])
          [.part (.attachment (some "a.txt".toList) "1".toList)])
        exampleState).map (fun st => (st.written, st.replies)) =
      some ([("data/a.txt".toList, "1".toList)],
        [⟨"a@b.c".toList, [], ["a.txt".toList], 1⟩]) := by
  decide

/-- C8, amended. Header parse degradation: a subject parse failure makes `processMail`
panic; the panic is recovered and logged and the message is abandoned (no part is read,
no file written, no reply sent).  A date parse failure is logged and processing goes on
with the zero date, exactly as for the same message with the zero date: `processMail`
returns for the one when it returns for the other, with the same files, created files
and replies.  It returns whenever `os.Stat` reports no error other than "does not
exist". -/
theorem processMail_header_failures (cfg : Config) (env : Env) (fuel : Nat) (msg : Message)
    (st : State) (m : Mail) (hbody : msg.body = .reader m) :
    (m.subject = none → processMail cfg env fuel msg st = some (st.logged .recovered)) ∧
    (∀ s, m.subject = some s → m.date = none →
      (processMail cfg env fuel msg st = none ↔
        processMail cfg env fuel
          ⟨msg.SeqNum, msg.Envelope, .reader ⟨m.subject, some 0, m.fromList, m.parts⟩⟩
          st = none) ∧
      (∀ st1, processMail cfg env fuel msg st = some st1 →
        ∃ st2, processMail cfg env fuel
            ⟨msg.SeqNum, msg.Envelope, .reader ⟨m.subject, some 0, m.fromList, m.parts⟩⟩
            st = some st2 ∧
          st1.sameEffects st2 ∧ LogEvent.dateError ∈ st1.log) ∧
      ((∀ p, env.statError p = false) → st.files.length + m.parts.length < fuel →
        ∃ st1, processMail cfg env fuel msg st = some st1)) := by
  constructor
  · intro hs
    simp only [processMail, hbody, hs, recovered]
  · intro s hs hd
    have h1 := processMail_unfold cfg env fuel msg st m s hbody hs
    have h2 := processMail_unfold cfg env fuel
      ⟨msg.SeqNum, msg.Envelope, .reader ⟨m.subject, some 0, m.fromList, m.parts⟩⟩ st
      ⟨m.subject, some 0, m.fromList, m.parts⟩ s rfl hs
    simp only at h2
    have hab : (beforeLoop m s st).sameEffects
        (beforeLoop ⟨m.subject, some 0, m.fromList, m.parts⟩ s st) :=
      sameEffects_trans (beforeLoop_sameEffects m s st)
        (sameEffects_symm (beforeLoop_sameEffects _ s st))
    have hdate : m.date.getD 0 = (Mail.mk m.subject (some 0) m.fromList m.parts).date.getD 0 := by
      rw [hd]; rfl
    have hde : LogEvent.dateError ∈ (beforeLoop m s st).log := by
      simp [beforeLoop, hd]
    refine ⟨?_, ?_, ?_⟩
    · rcases partsLoop_sameEffects cfg env fuel (routeLoop s cfg.Keys) s m.parts [] _ _ hab
        with ⟨k1, k2⟩ | ⟨ra, rb, k1, k2, -⟩
      · rw [h1, h2, k1, k2]; simp
      · rw [h1, h2, k1, k2]; simp
    · intro st1 hret
      rcases partsLoop_sameEffects cfg env fuel (routeLoop s cfg.Keys) s m.parts [] _ _ hab
        with ⟨k1, -⟩ | ⟨ra, rb, k1, k2, k3⟩
      · rw [h1, k1] at hret; simp at hret
      · rw [h1, k1] at hret
        simp only [Option.map_some', Option.some.injEq] at hret
        subst hret
        obtain ⟨hsame, hlog⟩ := afterLoop_sameEffects m
          ⟨m.subject, some 0, m.fromList, m.parts⟩ s ra rb rfl hdate k3
        exact ⟨_, by rw [h2, k2]; rfl, hsame,
          hlog _ ((partsLoop_replies cfg env fuel _ s _ _ _ ra k1).2 _ hde)⟩
    · intro hstat hfuel
      apply processMail_returns cfg env fuel msg st hstat
      simp only [partCount, hbody]
      exact hfuel

/-- C8, amended, at a message whose date fails to parse: the attachment is saved and the
reply carries the zero date. -/
theorem processMail_header_failures_witness :
    ∃ st1 st2,
      processMail exampleConfig exampleEnv 10
        ⟨1, none, .reader ⟨some "INVOICE 7".toList, none, some ["a@b.c".toList],
          [.part (.attachment (some "a.txt".toList) "1".toList)]⟩⟩ exampleState = some st1 ∧
      processMail exampleConfig exampleEnv 10
        ⟨1, none, .reader ⟨some "INVOICE 7".toList, some 0, some ["a@b.c".toList],
          [.part (.attachment (some "a.txt".toList) "1".toList)]⟩⟩ exampleState = some st2 ∧
      st1.sameEffects st2 ∧ LogEvent.dateError ∈ st1.log ∧
      st1.replies = [⟨"a@b.c".toList, "INVOICE 7".toList, ["a.txt".toList], 0⟩] := by
  have h := (processMail_header_failures exampleConfig exampleEnv 10
    ⟨1, none, .reader ⟨some "INVOICE 7".toList, none, some ["a@b.c".toList],
      [.part (.attachment (some "a.txt".toList) "1".toList)]⟩⟩ exampleState _ rfl).2
    "INVOICE 7".toList rfl rfl
  obtain ⟨st1, hret⟩ := h.2.2 (fun _ => rfl) (by decide)
  obtain ⟨st2, h2, h3, h4⟩ := h.2.1 st1 hret
  refine ⟨st1, st2, hret, h2, h3, h4, ?_⟩
  have hev : (processMail exampleConfig exampleEnv 10
      ⟨1, none, .reader ⟨some "INVOICE 7".toList, none, some ["a@b.c".toList],
        [.part (.attachment (some "a.txt".toList) "1".toList)]⟩⟩ exampleState).map
      (fun st => st.replies) =
      some [⟨"a@b.c".toList, "INVOICE 7".toList, ["a.txt".toList], 0⟩] := by decide
  rw [hret] at hev
  simpa using hev

/-- C9. Reply eligibility: for a message without resolvable sender (the `From` address
list fails to parse, or parses to no address), `processMail` makes no call of
`sendReply`, whatever the subject, the parts and the attachments are; it returns
whenever `os.Stat` reports no error other than "does not exist". -/
theorem processMail_no_sender_no_reply (cfg : Config) (env : Env) (fuel : Nat)
    (msg : Message) (st : State)
    (hfrom : ∀ m, msg.body = .reader m → m.fromList = none ∨ m.fromList = some []) :
    (∀ st', processMail cfg env fuel msg st = some st' → st'.replies = st.replies) ∧
    ((∀ p, env.statError p = false) → st.files.length + partCount msg < fuel →
      ∃ st', processMail cfg env fuel msg st = some st') := by
  refine ⟨?_, fun hstat hfuel => processMail_returns cfg env fuel msg st hstat hfuel⟩
  intro st' hret
  cases hbody : msg.body with
  | missing =>
    simp only [processMail, hbody, Option.some.injEq] at hret
    rw [← hret]; rfl
  | unreadable =>
    simp only [processMail, hbody, Option.some.injEq] at hret
    rw [← hret]; rfl
  | reader m =>
    cases hsubj : m.subject with
    | none =>
      simp only [processMail, hbody, hsubj, Option.some.injEq] at hret
      rw [← hret]; rfl
    | some s =>
      rw [processMail_unfold cfg env fuel msg st m s hbody hsubj] at hret
      cases hr : partsLoop cfg env fuel (routeLoop s cfg.Keys) s m.parts []
          (beforeLoop m s st) with
      | none => rw [hr] at hret; simp at hret
      | some r =>
        rw [hr] at hret
        simp only [Option.map_some', Option.some.injEq] at hret
        rw [← hret, afterLoop_no_sender m s r (hfrom m hbody),
          (partsLoop_replies cfg env fuel _ s _ _ _ r hr).1]
        exact (beforeLoop_sameEffects m s st).2.2

/-- C9 at a matching message with an attachment whose `From` list is empty: the
attachment is saved and no reply is sent. -/
theorem processMail_no_sender_no_reply_witness :
    (∀ m, (exampleMessage (some "INVOICE 7".toList) (some [])
        [.part (.attachment (some "a.txt".toList) "1".toList)]).body = .reader m →
      m.fromList = none ∨ m.fromList = some []) ∧
    ∃ st', processMail exampleConfig exampleEnv 10
        (exampleMessage (some "INVOICE 7".toList) (some [])
          [.part (.attachment (some "a.txt".toList) "1".toList)]) exampleState = some st' ∧
      st'.replies = exampleState.replies := by
  have h : ∀ m, (exampleMessage (some "INVOICE 7".toList) (some [])
        [.part (.attachment (some "a.txt".toList) "1".toList)]).body = .reader m →
      m.fromList = none ∨ m.fromList = some [] := by
    intro m hm
    simp only [exampleMessage, Body.reader.injEq] at hm
    subst hm
    exact Or.inr rfl
  have hc := processMail_no_sender_no_reply exampleConfig exampleEnv 10
    (exampleMessage (some "INVOICE 7".toList) (some [])
      [.part (.attachment (some "a.txt".toList) "1".toList)]) exampleState h
  obtain ⟨st', hret⟩ := hc.2 (fun _ => rfl) (by decide)
  exact ⟨h, st', hret, hc.1 st' hret⟩

/-- The candidates of `saveFile` for a contained name under a contained key: the
directory of the key, a `/` and the simple segments of the name, or that with a dash and
a number; all below the directory of the key. -/
theorem candidate_under (cfg : Config) (sk sf : List GoString) (q : GoString)
    (hokk : ∀ x ∈ sk, isPathElement x ∨ x = [] ∨ x = ['.'])
    (hrk : ∃ x ∈ sk, isPathElement x)
    (hokf : ∀ x ∈ sf, isPathElement x ∨ x = [] ∨ x = ['.'])
    (hrf : ∃ x ∈ sf, isPathElement x)
    (hq : isCandidate cfg (pathJoin [joinSegs sk, joinSegs sf]) q) :
    (q = pathJoin [cfg.DataDirectory, joinSegs sk] ++ '/' :: joinSegs (realSegs sf) ∨
      ∃ i, q = sprintfSD
        (pathJoin [cfg.DataDirectory, joinSegs sk] ++ '/' :: joinSegs (realSegs sf)) i) ∧
    (pathJoin [cfg.DataDirectory, joinSegs sk] ++ ['/']) <+: q := by
  simp only [isCandidate, pathJoin_contained cfg.DataDirectory sk sf hokk hrk hokf hrf] at hq
  refine ⟨hq, ?_⟩
  rcases hq with h | ⟨i, h⟩
  · rw [h]
    exact ⟨joinSegs (realSegs sf), by simp⟩
  · rw [h]
    exact ⟨joinSegs (realSegs sf) ++ '-' :: Nat.toDigits 10 i, by simp [sprintfSD]⟩

/-- C10 as stated fails: with the key `INVOICE` matched and the claimed filename
`../../etc/x`, the attachment is written at `etc/x`, which is not under `data/INVOICE`. -/
theorem processMail_storage_escape_counterexample :
    (processMail exampleConfig exampleEnv 10
        (exampleMessage (some "INVOICE monthly report".toList) (some ["a@b.c".toList])
          [.part (.attachment (some "../../etc/x".toList) "xyz".toList)])
        exampleState).map (fun st => st.written) =
      some [("etc/x".toList, "xyz".toList)] ∧
    routeLoop "INVOICE monthly report".toList exampleConfig.Keys = "INVOICE".toList ∧
    ¬ ("data/INVOICE/".toList <+: "etc/x".toList) := by
  decide

/-- C10, amended. Storage containment, attachment by attachment: when the matched
routing key and the claimed filename of an attachment have no `..` segment and name
something (their segments between `/` are simple elements, empty or `.`, one at least
being a simple element), the path `saveFile` chooses for that attachment, where the file
is created or the creation fails, lies under the directory `path.Join(storageRoot, key)`
made by `readConfig`: it is that directory, a `/` and the simple segments of the filename
joined by `/`, possibly followed by a dash and a number.  This holds whatever the other
attachments of the message are, and every file the message creates for such a name lies
under that directory.  The directory is literally `storageRoot/key` when the storage root
and the key are simple elements. -/
theorem processMail_storage_under_key (cfg : Config) (env : Env) (fuel : Nat) (msg : Message)
    (st : State) (m : Mail) (s : GoString) (ps : List Part) (st' : State)
    (sk : List GoString)
    (hbody : msg.body = .reader m) (hsubj : m.subject = some s)
    (hparts : m.parts = ps.map .part)
    (hkey : routeLoop s cfg.Keys = joinSegs sk)
    (hokk : ∀ x ∈ sk, isPathElement x ∨ x = [] ∨ x = ['.'])
    (hrk : ∃ x ∈ sk, isPathElement x)
    (hret : processMail cfg env fuel msg st = some st') :
    (∀ nb ∈ namedAttachments ps, ∀ sf : List GoString, nb.1 = joinSegs sf →
      (∀ x ∈ sf, isPathElement x ∨ x = [] ∨ x = ['.']) → (∃ x ∈ sf, isPathElement x) →
      ∃ q,
        (q = pathJoin [cfg.DataDirectory, routeLoop s cfg.Keys] ++
              '/' :: joinSegs (realSegs sf) ∨
          ∃ i, q = sprintfSD
            (pathJoin [cfg.DataDirectory, routeLoop s cfg.Keys] ++
              '/' :: joinSegs (realSegs sf)) i) ∧
        (pathJoin [cfg.DataDirectory, routeLoop s cfg.Keys] ++ ['/']) <+: q ∧
        ((env.canCreate q = true ∧ (q, nb.2) ∈ st'.written) ∨
          (env.canCreate q = false ∧ LogEvent.createError q ∈ st'.log))) ∧
    (∀ w ∈ st'.written, w ∈ st.written ∨
      ∃ nb ∈ namedAttachments ps,
        isCandidate cfg (pathJoin [routeLoop s cfg.Keys, nb.1]) w.1 ∧ w.2 = nb.2 ∧
        ∀ sf : List GoString, nb.1 = joinSegs sf →
          (∀ x ∈ sf, isPathElement x ∨ x = [] ∨ x = ['.']) → (∃ x ∈ sf, isPathElement x) →
          (pathJoin [cfg.DataDirectory, routeLoop s cfg.Keys] ++ ['/']) <+: w.1) ∧
    (isPathElement cfg.DataDirectory → isPathElement (routeLoop s cfg.Keys) →
      pathJoin [cfg.DataDirectory, routeLoop s cfg.Keys] =
        cfg.DataDirectory ++ '/' :: routeLoop s cfg.Keys) := by
  obtain ⟨n1, s1, -, ⟨-, -, -, -, -, -, a7, -, a9⟩, rfl⟩ :=
    processMail_parts cfg env fuel msg st m s ps hbody hsubj hparts st' hret
  obtain ⟨-, f2, f3, -, -⟩ := finish_effects m s1 s n1
  refine ⟨?_, ?_, fun hd hk => pathJoin_elements _ _ hd hk⟩
  · intro nb hnb sf hf hokf hrf
    obtain ⟨q, hq, hres⟩ := a7 nb hnb
    rw [hkey, hf] at hq
    obtain ⟨h1, h2⟩ := candidate_under cfg sk sf q hokk hrk hokf hrf hq
    rw [← hkey] at h1 h2
    refine ⟨q, h1, h2, ?_⟩
    rcases hres with hw | hl
    · exact Or.inl ⟨hw.1, by rw [f2]; exact hw.2⟩
    · exact Or.inr ⟨hl.1, f3 _ hl.2⟩
  · intro w hw
    rw [f2] at hw
    rcases a9 w hw with h | ⟨nb, hnb, hc, hb⟩
    · exact Or.inl (by rw [← (beforeLoop_sameEffects m s st).2.1]; exact h)
    · refine Or.inr ⟨nb, hnb, hc, hb, ?_⟩
      intro sf hf hokf hrf
      rw [hkey, hf] at hc
      have h2 := (candidate_under cfg sk sf w.1 hokk hrk hokf hrf hc).2
      rw [← hkey] at h2
      exact h2

/-- C10, amended, at a message that carries `report.pdf` and `sub/x.pdf` beside
`../../etc/x`, with the key `INVOICE` matched: `report.pdf` is written at
`data/INVOICE/report.pdf` and `sub/x.pdf` at `data/INVOICE/sub/x.pdf`. -/
theorem processMail_storage_under_key_witness :
    (processMail exampleConfig exampleEnv 10
        (exampleMessage (some "INVOICE monthly report".toList) (some ["a@b.c".toList])
          [.part (.attachment (some "../../etc/x".toList) "0".toList),
            .part (.attachment (some "report.pdf".toList) "1".toList),
            .part (.attachment (some "sub/x.pdf".toList) "2".toList)])
        exampleState).map (fun st => st.written) =
      some [("etc/x".toList, "0".toList), ("data/INVOICE/report.pdf".toList, "1".toList),
        ("data/INVOICE/sub/x.pdf".toList, "2".toList)] ∧
    ∃ st' q,
      processMail exampleConfig exampleEnv 10
        (exampleMessage (some "INVOICE monthly report".toList) (some ["a@b.c".toList])
          [.part (.attachment (some "../../etc/x".toList) "0".toList),
            .part (.attachment (some "report.pdf".toList) "1".toList),
            .part (.attachment (some "sub/x.pdf".toList) "2".toList)])
        exampleState = some st' ∧
      (pathJoin [exampleConfig.DataDirectory,
          routeLoop "INVOICE monthly report".toList exampleConfig.Keys] ++ ['/']) <+: q ∧
      (q, "2".toList) ∈ st'.written := by
  refine ⟨by decide, ?_⟩
  obtain ⟨st', hret⟩ := processMail_returns exampleConfig exampleEnv 10
    (exampleMessage (some "INVOICE monthly report".toList) (some ["a@b.c".toList])
      [.part (.attachment (some "../../etc/x".toList) "0".toList),
        .part (.attachment (some "report.pdf".toList) "1".toList),
        .part (.attachment (some "sub/x.pdf".toList) "2".toList)])
    exampleState (fun _ => rfl) (by decide)
  have h := processMail_storage_under_key exampleConfig exampleEnv 10
    (exampleMessage (some "INVOICE monthly report".toList) (some ["a@b.c".toList])
      [.part (.attachment (some "../../etc/x".toList) "0".toList),
        .part (.attachment (some "report.pdf".toList) "1".toList),
        .part (.attachment (some "sub/x.pdf".toList) "2".toList)])
    exampleState _ "INVOICE monthly report".toList
    [.attachment (some "../../etc/x".toList) "0".toList,
      .attachment (some "report.pdf".toList) "1".toList,
      .attachment (some "sub/x.pdf".toList) "2".toList] st' ["INVOICE".toList]
    rfl rfl rfl (by decide) (by decide) (by decide) hret
  obtain ⟨q, -, hq2, hq3⟩ := h.1 ("sub/x.pdf".toList, "2".toList) (by decide)
    ["sub".toList, "x.pdf".toList] (by decide) (by decide) (by decide)
  rcases hq3 with hw | hl
  · exact ⟨st', q, hret, hq2, hw.2⟩
  · exact absurd hl.1 (by simp [exampleEnv])

end AutoEmail
